import Mathlib

/-!
Verification of the author-name resolution core of the Poem-Recommender
repository: `utils/author_matcher.py` (transliteration, similarity scoring,
the `AuthorMatcher` class) and `utils/intent.py` (`detect_intent`,
`find_author_in_text`, the light Russian stemmer).

Modelling conventions.
* Python strings are `List Char` (`Str`).  Unicode-dependent primitives
  (`str.lower`, NFKD, `str.isspace`, regex `\w`) are embedded for the
  character repertoire the program actually works over: ASCII and the
  Cyrillic block (`А`-`я`, `Ё`/`ё`, `Й`/`й`); on other characters they act as
  identity / false, as in Python for characters without case or
  decomposition.
* Similarity scores are exact rationals: `difflib`'s `2.0 * M / T` is
  modelled as the exact ratio `2 * M / T : ℚ`; float rounding is out of
  scope.
* `difflib.SequenceMatcher(None, a, b)` is embedded completely: the
  `b2j` popularity purge (`autojunk`, active for `len(b) >= 200`), the
  longest-matching-block search with its earliest-in-`a` /
  earliest-in-`b` tie-break, the junk-free extension loops, and the
  recursive block decomposition of `get_matching_blocks` (only the sum
  of block sizes is carried, which is all `ratio()` consumes).
* Fallible code (the `author.split()[-1]` IndexError path, `json.load`
  on a corrupt file) is modelled with `Except Unit`.
-/

namespace PoemRec

/-- Python strings as lists of characters. -/
abbrev Str := List Char

/-! ### Python string primitives -/

/-- The whitespace characters recognised by `str.split()` / `str.strip()` /
`str.isspace()` for the ASCII repertoire. -/
def pyIsSpace (c : Char) : Bool :=
  c = ' ' || c = '\t' || c = '\n' || c = '\x0d' || c = '\x0b' || c = '\x0c'

/-- `str.split()` with no separator: split on whitespace runs, dropping
empty chunks. -/
def splitPy (s : Str) : List Str :=
  (s.splitOnP pyIsSpace).filter (fun w => !w.isEmpty)

/-- `" ".join(parts)`. -/
def joinSpace (l : List Str) : Str :=
  List.intercalate [' '] l

/-- `str.lower()` on the ASCII + Cyrillic repertoire. -/
def pyLowerChar (c : Char) : Char :=
  if 'A' ≤ c ∧ c ≤ 'Z' then Char.ofNat (c.toNat + 32)
  else if 'А' ≤ c ∧ c ≤ 'Я' then Char.ofNat (c.toNat + 32)
  else if c = 'Ё' then 'ё'
  else c

/-- `unicodedata.normalize('NFKD', ·)` per character, on the repertoire in
use: only `й`/`ё` (and capitals) decompose (base letter + combining mark);
every other character in the repertoire is its own NFKD form. -/
def nfkdChar (c : Char) : List Char :=
  if c = 'й' then ['и', '̆']
  else if c = 'Й' then ['И', '̆']
  else if c = 'ё' then ['е', '̈']
  else if c = 'Ё' then ['Е', '̈']
  else [c]

/-- `AuthorMatcher.normalize_text`: NFKD, lowercase, collapse whitespace. -/
def normalizeText (s : Str) : Str :=
  joinSpace (splitPy (((s.map nfkdChar).flatten).map pyLowerChar))

/-- `str.strip()` (whitespace from both ends). -/
def pyStrip (s : Str) : Str :=
  (s.dropWhile pyIsSpace).reverse.dropWhile pyIsSpace |>.reverse

/-- `str.strip(chars)` (strip any of `cs` from both ends). -/
def stripChars (cs : List Char) (s : Str) : Str :=
  (s.dropWhile (· ∈ cs)).reverse.dropWhile (· ∈ cs) |>.reverse

/-- Python substring test `needle in hay` (contiguous substring). -/
def containsSub (hay needle : Str) : Bool :=
  (List.range (hay.length + 1)).any
    (fun i => decide ((hay.drop i).take needle.length = needle))

/-! ### `difflib.SequenceMatcher` (isjunk=None, autojunk=True)

`__chain_b` deletes from `b2j` the *popular* elements of `b` (appearing more
than `len(b) // 100 + 1` times) when `len(b) >= 200`; such characters cannot
seed or participate in the dynamic-programming run search, but the
extension loops (which only consult the — here empty — junk set) may still
match them. -/

/-- A character purged from `b2j` by the autojunk heuristic. -/
def bpopular (b : Str) (c : Char) : Bool :=
  decide (200 ≤ b.length) && decide (b.length / 100 + 1 < b.count c)

/-- `(i, j, k)` describes `k` aligned positions `a[i+m] = b[j+m]` inside the
windows `[alo, ahi)` × `[blo, bhi)`, all of them `b2j`-eligible
(non-popular).  These are exactly the runs the `find_longest_match`
dynamic program can discover. -/
def isBlockB (a b : Str) (alo ahi blo bhi i j k : ℕ) : Bool :=
  decide (alo ≤ i) && decide (i + k ≤ ahi) && decide (blo ≤ j) &&
    decide (j + k ≤ bhi) &&
    (List.range k).all
      (fun m => decide (a.getD (i + m) ' ' = b.getD (j + m) ' ') &&
        !bpopular b (b.getD (j + m) ' '))

/-- Some eligible block of size `k` exists in the window. -/
def hasBlkB (a b : Str) (alo ahi blo bhi k : ℕ) : Bool :=
  (List.range (ahi + 1)).any (fun i =>
    (List.range (bhi + 1)).any (fun j => isBlockB a b alo ahi blo bhi i j k))

/-- The size of the longest eligible block (the DP's `bestsize`). -/
def bestSize (a b : Str) (alo ahi blo bhi : ℕ) : ℕ :=
  Nat.findGreatest (fun k => hasBlkB a b alo ahi blo bhi k = true)
    (min (ahi - alo) (bhi - blo))

/-- The candidate predicate for `besti`: position `i` (within the window)
starts a block of the maximal size. -/
def bestIP (a b : Str) (alo ahi blo bhi : ℕ) (i : ℕ) : Bool :=
  decide (i ≤ ahi) &&
    (List.range (bhi + 1)).any
      (fun j => isBlockB a b alo ahi blo bhi i j (bestSize a b alo ahi blo bhi))

/-- The DP keeps the first strict improvement while scanning `i`
ascending, then `j` ascending: of all maximal blocks it returns the one
starting earliest in `a` (`besti`). -/
def bestI (a b : Str) (alo ahi blo bhi : ℕ) : ℕ :=
  match (List.range (ahi + 1)).find? (bestIP a b alo ahi blo bhi) with
  | some i => i
  | none => alo

/-- The candidate predicate for `bestj`, given `besti`. -/
def bestJP (a b : Str) (alo ahi blo bhi : ℕ) (j : ℕ) : Bool :=
  decide (j ≤ bhi) &&
    isBlockB a b alo ahi blo bhi (bestI a b alo ahi blo bhi) j
      (bestSize a b alo ahi blo bhi)

/-- ... and of those, the one starting earliest in `b` (`bestj`). -/
def bestJ (a b : Str) (alo ahi blo bhi : ℕ) : ℕ :=
  match (List.range (bhi + 1)).find? (bestJP a b alo ahi blo bhi) with
  | some j => j
  | none => blo

/-- `find?` over `List.range` returns the least satisfying number. -/
theorem find?_range_spec {p : ℕ → Bool} :
    ∀ (n s : ℕ) {x : ℕ}, (List.range' s n).find? p = some x →
      p x = true ∧ s ≤ x ∧ (∀ m, s ≤ m → m < x → ¬ p m = true) := by
  intro n
  induction n with
  | zero =>
    intro s x h
    exact absurd h (by simp)
  | succ n IH =>
    intro s x h
    rw [List.range'_succ] at h
    by_cases hs : p s = true
    · rw [List.find?_cons_of_pos _ hs] at h
      have hx : s = x := Option.some.inj h
      subst hx
      exact ⟨hs, le_refl s, fun m h1 h2 => absurd (lt_of_le_of_lt h1 h2)
        (lt_irrefl s)⟩
    · rw [List.find?_cons_of_neg _ hs] at h
      rcases IH (s + 1) h with ⟨h1, h2, h3⟩
      refine ⟨h1, by omega, fun m hm1 hm2 => ?_⟩
      by_cases hms : m = s
      · subst hms
        exact hs
      · exact h3 m (by omega) hm2

/-- Conversely, the least satisfying number below the bound is what
`find?` returns. -/
theorem find?_range_eq {p : ℕ → Bool} :
    ∀ (n s x : ℕ), s ≤ x → x < s + n → p x = true →
      (∀ m, s ≤ m → m < x → ¬ p m = true) →
      (List.range' s n).find? p = some x := by
  intro n
  induction n with
  | zero =>
    intro s x h1 h2
    omega
  | succ n IH =>
    intro s x h1 h2 hp hmin
    rw [List.range'_succ]
    by_cases hsx : s = x
    · subst hsx
      rw [List.find?_cons_of_pos _ hp]
    · rw [List.find?_cons_of_neg _ (hmin s (le_refl s) (by omega))]
      exact IH (s + 1) x (by omega) (by omega) hp
        (fun m hm1 hm2 => hmin m (by omega) hm2)

/-- The first extension loop of `find_longest_match`: grow the block
leftwards while the characters agree (the junk test is vacuous for
`isjunk=None`).  Structural recursion on `i` (the loop decrements `besti`,
which stays nonnegative). -/
def extendLeft (a b : Str) (alo blo : ℕ) : ℕ → ℕ → ℕ → ℕ × ℕ × ℕ
  | 0, j, k => (0, j, k)
  | i + 1, j, k =>
    if alo < i + 1 ∧ blo < j ∧ a.getD i ' ' = b.getD (j - 1) ' ' then
      extendLeft a b alo blo i (j - 1) (k + 1)
    else (i + 1, j, k)

/-- `extendLeft` satisfies the loop equation of the source. -/
theorem extendLeft_eq (a b : Str) (alo blo i j k : ℕ) :
    extendLeft a b alo blo i j k =
      if alo < i ∧ blo < j ∧ a.getD (i - 1) ' ' = b.getD (j - 1) ' ' then
        extendLeft a b alo blo (i - 1) (j - 1) (k + 1)
      else (i, j, k) := by
  rcases i with _ | i
  · rw [if_neg (fun hc => Nat.not_lt_zero alo hc.1)]
    rfl
  · rw [show i + 1 - 1 = i from rfl]
    rfl

/-- The second extension loop: grow the block rightwards.  The loop
variable is the distance to the right window edge, which shrinks by one
each iteration, so it serves as an exact structural fuel. -/
def extendRightF (a b : Str) (ahi bhi i j : ℕ) : ℕ → ℕ → ℕ
  | 0, k => k
  | fuel + 1, k =>
    if i + k < ahi ∧ j + k < bhi ∧ a.getD (i + k) ' ' = b.getD (j + k) ' '
      then extendRightF a b ahi bhi i j fuel (k + 1)
    else k

def extendRight (a b : Str) (ahi bhi i j k : ℕ) : ℕ :=
  extendRightF a b ahi bhi i j (ahi - (i + k)) k

/-- `extendRight` satisfies the loop equation of the source. -/
theorem extendRight_eq (a b : Str) (ahi bhi i j k : ℕ) :
    extendRight a b ahi bhi i j k =
      if i + k < ahi ∧ j + k < bhi ∧
          a.getD (i + k) ' ' = b.getD (j + k) ' ' then
        extendRight a b ahi bhi i j (k + 1)
      else k := by
  unfold extendRight
  rcases hf : ahi - (i + k) with _ | n
  · rw [if_neg (fun hc => absurd hc.1 (by omega))]
    rfl
  · show (if _ then extendRightF a b ahi bhi i j n (k + 1) else k) = _
    by_cases hg : i + k < ahi ∧ j + k < bhi ∧
        a.getD (i + k) ' ' = b.getD (j + k) ' '
    · rw [if_pos hg, if_pos hg]
      have hn : n = ahi - (i + (k + 1)) := by omega
      rw [hn]
    · rw [if_neg hg, if_neg hg]

/-- Apply the rightward extension to the result of the leftward one. -/
def flmExt (a b : Str) (ahi bhi : ℕ) (p : ℕ × ℕ × ℕ) : ℕ × ℕ × ℕ :=
  (p.1, p.2.1, extendRight a b ahi bhi p.1 p.2.1 p.2.2)

/-- `find_longest_match(alo, ahi, blo, bhi)`: the DP best block, extended
left then right. -/
def flm (a b : Str) (alo ahi blo bhi : ℕ) : ℕ × ℕ × ℕ :=
  flmExt a b ahi bhi
    (extendLeft a b alo blo (bestI a b alo ahi blo bhi)
      (bestJ a b alo ahi blo bhi) (bestSize a b alo ahi blo bhi))

/-- `besti` component of `find_longest_match`. -/
def flmI (a b : Str) (alo ahi blo bhi : ℕ) : ℕ := (flm a b alo ahi blo bhi).1

/-- `bestj` component of `find_longest_match`. -/
def flmJ (a b : Str) (alo ahi blo bhi : ℕ) : ℕ := (flm a b alo ahi blo bhi).2.1

/-- `bestsize` component of `find_longest_match`. -/
def flmK (a b : Str) (alo ahi blo bhi : ℕ) : ℕ := (flm a b alo ahi blo bhi).2.2

theorem isBlockB_bounds {a b : Str} {alo ahi blo bhi i j k : ℕ}
    (h : isBlockB a b alo ahi blo bhi i j k = true) :
    alo ≤ i ∧ i + k ≤ ahi ∧ blo ≤ j ∧ j + k ≤ bhi := by
  simp only [isBlockB, Bool.and_eq_true, decide_eq_true_eq] at h
  exact ⟨h.1.1.1.1, h.1.1.1.2, h.1.1.2, h.1.2⟩

theorem isBlockB_content {a b : Str} {alo ahi blo bhi i j k : ℕ}
    (h : isBlockB a b alo ahi blo bhi i j k = true) :
    ∀ m < k, a.getD (i + m) ' ' = b.getD (j + m) ' ' ∧
      bpopular b (b.getD (j + m) ' ') = false := by
  simp only [isBlockB, Bool.and_eq_true, List.all_eq_true, List.mem_range,
    decide_eq_true_eq, Bool.not_eq_true'] at h
  exact fun m hm => h.2 m hm

theorem isBlockB_intro {a b : Str} {alo ahi blo bhi i j k : ℕ}
    (h1 : alo ≤ i) (h2 : i + k ≤ ahi) (h3 : blo ≤ j) (h4 : j + k ≤ bhi)
    (h5 : ∀ m < k, a.getD (i + m) ' ' = b.getD (j + m) ' ' ∧
      bpopular b (b.getD (j + m) ' ') = false) :
    isBlockB a b alo ahi blo bhi i j k = true := by
  simp only [isBlockB, Bool.and_eq_true, List.all_eq_true, List.mem_range,
    decide_eq_true_eq, Bool.not_eq_true']
  exact ⟨⟨⟨⟨h1, h2⟩, h3⟩, h4⟩, fun m hm => h5 m hm⟩

theorem hasBlkB_elim {a b : Str} {alo ahi blo bhi k : ℕ}
    (h : hasBlkB a b alo ahi blo bhi k = true) :
    ∃ i j, isBlockB a b alo ahi blo bhi i j k = true := by
  simp only [hasBlkB, List.any_eq_true, List.mem_range] at h
  rcases h with ⟨i, _, j, _, hb⟩
  exact ⟨i, j, hb⟩

theorem bestSize_block {a b : Str} {alo ahi blo bhi : ℕ}
    (h : bestSize a b alo ahi blo bhi ≠ 0) :
    ∃ i j, isBlockB a b alo ahi blo bhi i j (bestSize a b alo ahi blo bhi) = true := by
  apply hasBlkB_elim
  unfold bestSize at h ⊢
  have h2 : ¬ (∀ ⦃n : ℕ⦄, 0 < n → n ≤ (ahi - alo) ⊓ (bhi - blo) →
      ¬ hasBlkB a b alo ahi blo bhi n = true) :=
    fun hall => h (Nat.findGreatest_eq_zero_iff.mpr hall)
  push_neg at h2
  rcases h2 with ⟨m, _, hmk, hPm⟩
  exact Nat.findGreatest_spec
    (P := fun k => hasBlkB a b alo ahi blo bhi k = true) hmk hPm

theorem bestI_find {a b : Str} {alo ahi blo bhi : ℕ}
    (h : bestSize a b alo ahi blo bhi ≠ 0) :
    (List.range (ahi + 1)).find? (bestIP a b alo ahi blo bhi) =
      some (bestI a b alo ahi blo bhi) := by
  rcases bestSize_block h with ⟨i, j, hb⟩
  rcases isBlockB_bounds hb with ⟨_, hik, _, hjk⟩
  have hIP : bestIP a b alo ahi blo bhi i = true := by
    simp only [bestIP, Bool.and_eq_true, decide_eq_true_eq, List.any_eq_true,
      List.mem_range]
    exact ⟨by omega, j, by omega, hb⟩
  have hsome : ((List.range (ahi + 1)).find?
      (bestIP a b alo ahi blo bhi)).isSome := by
    rw [List.find?_isSome]
    exact ⟨i, by simp only [List.mem_range]; omega, hIP⟩
  rcases hf : (List.range (ahi + 1)).find? (bestIP a b alo ahi blo bhi) with
    _ | i1
  · rw [hf] at hsome
    exact absurd hsome (by simp)
  · have hI : bestI a b alo ahi blo bhi = i1 := by
      unfold bestI
      rw [hf]
    rw [hI]

theorem bestIP_best {a b : Str} {alo ahi blo bhi : ℕ}
    (h : bestSize a b alo ahi blo bhi ≠ 0) :
    bestIP a b alo ahi blo bhi (bestI a b alo ahi blo bhi) = true :=
  List.find?_some (bestI_find h)

theorem bestJ_find {a b : Str} {alo ahi blo bhi : ℕ}
    (h : bestSize a b alo ahi blo bhi ≠ 0) :
    (List.range (bhi + 1)).find? (bestJP a b alo ahi blo bhi) =
      some (bestJ a b alo ahi blo bhi) := by
  have hbI := bestIP_best h
  simp only [bestIP, Bool.and_eq_true, decide_eq_true_eq, List.any_eq_true,
    List.mem_range] at hbI
  rcases hbI with ⟨_, j', _, hbj'⟩
  have hJP : bestJP a b alo ahi blo bhi j' = true := by
    simp only [bestJP, Bool.and_eq_true, decide_eq_true_eq]
    rcases isBlockB_bounds hbj' with ⟨_, _, _, hj'⟩
    exact ⟨by omega, hbj'⟩
  have hsome : ((List.range (bhi + 1)).find?
      (bestJP a b alo ahi blo bhi)).isSome := by
    rw [List.find?_isSome]
    rcases isBlockB_bounds hbj' with ⟨_, _, _, hj'⟩
    exact ⟨j', by simp only [List.mem_range]; omega, hJP⟩
  rcases hf : (List.range (bhi + 1)).find? (bestJP a b alo ahi blo bhi) with
    _ | j1
  · rw [hf] at hsome
    exact absurd hsome (by simp)
  · have hJ : bestJ a b alo ahi blo bhi = j1 := by
      unfold bestJ
      rw [hf]
    rw [hJ]

/-- With a nonzero maximal size, the DP result `(besti, bestj)` is a genuine
block of that size. -/
theorem best_block {a b : Str} {alo ahi blo bhi : ℕ}
    (h : bestSize a b alo ahi blo bhi ≠ 0) :
    isBlockB a b alo ahi blo bhi (bestI a b alo ahi blo bhi)
      (bestJ a b alo ahi blo bhi) (bestSize a b alo ahi blo bhi) = true := by
  have hbJ : bestJP a b alo ahi blo bhi (bestJ a b alo ahi blo bhi) = true :=
    List.find?_some (bestJ_find h)
  simp only [bestJP, Bool.and_eq_true, decide_eq_true_eq] at hbJ
  exact hbJ.2

/-- With maximal size zero the DP start point degenerates to the window
corner `(alo, blo)`. -/
theorem best_of_size_zero {a b : Str} {alo ahi blo bhi : ℕ}
    (h : bestSize a b alo ahi blo bhi = 0) :
    bestI a b alo ahi blo bhi = alo ∧ bestJ a b alo ahi blo bhi = blo := by
  by_cases hw : alo ≤ ahi ∧ blo ≤ bhi
  · have hblk : isBlockB a b alo ahi blo bhi alo blo 0 = true :=
      isBlockB_intro (by omega) (by omega) (by omega) (by omega)
        (by intro m hm; omega)
    have hIPalo : bestIP a b alo ahi blo bhi alo = true := by
      simp only [bestIP, Bool.and_eq_true, decide_eq_true_eq, List.any_eq_true,
        List.mem_range, h]
      exact ⟨by omega, blo, by omega, hblk⟩
    have hI : bestI a b alo ahi blo bhi = alo := by
      unfold bestI
      rw [List.range_eq_range', find?_range_eq (ahi + 1) 0 alo (by omega)
        (by omega) hIPalo ?hmin]
      case hmin =>
        intro m _ hm
        simp only [bestIP, Bool.and_eq_true, decide_eq_true_eq,
          List.any_eq_true, List.mem_range, not_and]
        intro _
        rintro ⟨j, _, hbj⟩
        exact absurd (isBlockB_bounds hbj).1 (by omega)
    refine ⟨hI, ?_⟩
    have hJPblo : bestJP a b alo ahi blo bhi blo = true := by
      simp only [bestJP, Bool.and_eq_true, decide_eq_true_eq, h, hI]
      exact ⟨by omega, hblk⟩
    unfold bestJ
    rw [List.range_eq_range', find?_range_eq (bhi + 1) 0 blo (by omega)
      (by omega) hJPblo ?hminJ]
    case hminJ =>
      intro m _ hm
      simp only [bestJP, Bool.and_eq_true, decide_eq_true_eq, not_and]
      intro _ hbj
      exact absurd (isBlockB_bounds hbj).2.2.1 (by omega)
  · have hnone : ∀ i j k, isBlockB a b alo ahi blo bhi i j k ≠ true := by
      intro i j k hb
      rcases isBlockB_bounds hb with ⟨h1, h2, h3, h4⟩
      omega
    constructor
    · unfold bestI
      rw [List.find?_eq_none.mpr ?hnI]
      case hnI =>
        intro i _
        simp only [bestIP, Bool.and_eq_true, decide_eq_true_eq,
          List.any_eq_true, List.mem_range, not_and]
        intro _
        rintro ⟨j, _, hbj⟩
        exact hnone _ _ _ hbj
    · unfold bestJ
      rw [List.find?_eq_none.mpr ?hnJ]
      case hnJ =>
        intro j _
        simp only [bestJP, Bool.and_eq_true, decide_eq_true_eq, not_and]
        intro _ hbj
        exact hnone _ _ _ hbj

theorem extendLeft_inv (a b : Str) (alo blo : ℕ) :
    ∀ i j k, ∃ i2 j2 k2, extendLeft a b alo blo i j k = (i2, j2, k2) ∧
      k2 + i2 = k + i ∧ k2 + j2 = k + j ∧ k ≤ k2 ∧
      (alo ≤ i → alo ≤ i2) ∧ (blo ≤ j → blo ≤ j2) := by
  intro i
  induction i using Nat.strong_induction_on with
  | _ i IH =>
    intro j k
    rw [extendLeft_eq]
    split
    · rename_i h
      rcases IH (i - 1) (by omega) (j - 1) (k + 1) with
        ⟨i2, j2, k2, heq, h1, h2, h3, h4, h5⟩
      exact ⟨i2, j2, k2, heq, by omega, by omega, by omega,
        fun _ => h4 (by omega), fun _ => h5 (by omega)⟩
    · exact ⟨i, j, k, rfl, rfl, rfl, le_refl k, fun h => h, fun h => h⟩

theorem extendRight_aux (a b : Str) (ahi bhi i j : ℕ) :
    ∀ n k, ahi - (i + k) ≤ n →
      ∃ k2, extendRight a b ahi bhi i j k = k2 ∧ k ≤ k2 ∧
        (k2 = k ∨ (i + k2 ≤ ahi ∧ j + k2 ≤ bhi)) := by
  intro n
  induction n with
  | zero =>
    intro k hk
    rw [extendRight_eq]
    rw [if_neg (fun hc => absurd hc.1 (by omega))]
    exact ⟨k, rfl, le_refl k, Or.inl rfl⟩
  | succ n IH =>
    intro k hk
    rw [extendRight_eq]
    split
    · rename_i h
      rcases IH (k + 1) (by omega) with ⟨k2, heq, h1, h2⟩
      refine ⟨k2, heq, by omega, Or.inr ?_⟩
      rcases h2 with h2 | h2
      · omega
      · exact h2
    · exact ⟨k, rfl, le_refl k, Or.inl rfl⟩

theorem extendRight_inv (a b : Str) (ahi bhi i j k : ℕ) :
    k ≤ extendRight a b ahi bhi i j k ∧
      (extendRight a b ahi bhi i j k = k ∨
        (i + extendRight a b ahi bhi i j k ≤ ahi ∧
         j + extendRight a b ahi bhi i j k ≤ bhi)) := by
  rcases extendRight_aux a b ahi bhi i j (ahi - (i + k)) k (le_refl _) with
    ⟨k2, heq, h1, h2⟩
  rw [heq]
  exact ⟨h1, h2⟩

/-- The block returned by `find_longest_match` lies inside the window
whenever it is nonempty. -/
theorem flm_eq (a b : Str) (alo ahi blo bhi : ℕ) {i2 j2 k2 : ℕ}
    (heq : extendLeft a b alo blo (bestI a b alo ahi blo bhi)
      (bestJ a b alo ahi blo bhi) (bestSize a b alo ahi blo bhi)
        = (i2, j2, k2)) :
    flm a b alo ahi blo bhi = (i2, j2, extendRight a b ahi bhi i2 j2 k2) := by
  unfold flm flmExt
  rw [heq]

theorem flm_bounds (a b : Str) (alo ahi blo bhi : ℕ)
    (h : flmK a b alo ahi blo bhi ≠ 0) :
    alo ≤ flmI a b alo ahi blo bhi ∧
    flmI a b alo ahi blo bhi + flmK a b alo ahi blo bhi ≤ ahi ∧
    blo ≤ flmJ a b alo ahi blo bhi ∧
    flmJ a b alo ahi blo bhi + flmK a b alo ahi blo bhi ≤ bhi := by
  rcases extendLeft_inv a b alo blo (bestI a b alo ahi blo bhi)
      (bestJ a b alo ahi blo bhi) (bestSize a b alo ahi blo bhi) with
    ⟨i2, j2, k2, heq, hL1, hL2, hL3, hL4, hL5⟩
  have hflm := flm_eq a b alo ahi blo bhi heq
  unfold flmI flmJ flmK at *
  rw [hflm] at h ⊢
  simp only at h ⊢
  rcases extendRight_inv a b ahi bhi i2 j2 k2 with ⟨hR1, hR2⟩
  by_cases hz : bestSize a b alo ahi blo bhi = 0
  · rcases best_of_size_zero hz with ⟨hIa, hJb⟩
    have h4 : alo ≤ i2 := hL4 (by omega)
    have h5 : blo ≤ j2 := hL5 (by omega)
    rcases hR2 with hR2 | hR2
    · rw [hR2] at h ⊢
      omega
    · exact ⟨h4, hR2.1, h5, hR2.2⟩
  · have hb := best_block hz
    rcases isBlockB_bounds hb with ⟨hb1, hb2, hb3, hb4⟩
    rcases hR2 with hR2 | hR2
    · rw [hR2]
      refine ⟨hL4 hb1, by omega, hL5 hb3, by omega⟩
    · exact ⟨hL4 hb1, by omega, hL5 hb3, by omega⟩

theorem flmK_zero_of_empty {a b : Str} {alo ahi blo bhi : ℕ}
    (h : ahi ≤ alo) : flmK a b alo ahi blo bhi = 0 := by
  by_contra hk
  have := flm_bounds a b alo ahi blo bhi hk
  omega

/-- The total size of the matching blocks produced by
`get_matching_blocks`: the chosen block plus the recursive left and right
decompositions (`ratio()` consumes nothing else of the block structure).
The window width `ahi - alo` strictly shrinks at each recursive call, so
it serves as a structural fuel. -/
def matchesSumF (a b : Str) : ℕ → ℕ → ℕ → ℕ → ℕ → ℕ
  | 0, _, _, _, _ => 0
  | fuel + 1, alo, ahi, blo, bhi =>
    if flmK a b alo ahi blo bhi = 0 then 0
    else
      flmK a b alo ahi blo bhi +
        (if alo < flmI a b alo ahi blo bhi ∧ blo < flmJ a b alo ahi blo bhi
          then matchesSumF a b fuel alo (flmI a b alo ahi blo bhi) blo
            (flmJ a b alo ahi blo bhi)
          else 0) +
        (if flmI a b alo ahi blo bhi + flmK a b alo ahi blo bhi < ahi ∧
            flmJ a b alo ahi blo bhi + flmK a b alo ahi blo bhi < bhi
          then matchesSumF a b fuel
            (flmI a b alo ahi blo bhi + flmK a b alo ahi blo bhi) ahi
            (flmJ a b alo ahi blo bhi + flmK a b alo ahi blo bhi) bhi
          else 0)

def matchesSum (a b : Str) (alo ahi blo bhi : ℕ) : ℕ :=
  matchesSumF a b (ahi - alo) alo ahi blo bhi

/-- Any sufficient fuel computes the same block sum. -/
theorem matchesSumF_eq (a b : Str) :
    ∀ f alo ahi blo bhi, ahi - alo ≤ f →
      matchesSumF a b f alo ahi blo bhi =
        matchesSumF a b (ahi - alo) alo ahi blo bhi := by
  intro f
  induction f using Nat.strong_induction_on with
  | _ f IH =>
    intro alo ahi blo bhi hle
    rcases f with _ | f
    · have h0 : ahi - alo = 0 := by omega
      rw [h0]
    · by_cases h0 : ahi - alo = 0
      · have hk0 : flmK a b alo ahi blo bhi = 0 := flmK_zero_of_empty (by omega)
        rw [h0]
        show (if flmK a b alo ahi blo bhi = 0 then 0 else _) = 0
        rw [if_pos hk0]
      · rcases hm : ahi - alo with _ | m
        · omega
        · simp only [matchesSumF]
          by_cases hk : flmK a b alo ahi blo bhi = 0
          · rw [if_pos hk, if_pos hk]
          · rw [if_neg hk, if_neg hk]
            have hb := flm_bounds a b alo ahi blo bhi hk
            congr 1
            · congr 1
              by_cases h1 : alo < flmI a b alo ahi blo bhi ∧
                  blo < flmJ a b alo ahi blo bhi
              · rw [if_pos h1, if_pos h1]
                rw [IH f (by omega) alo (flmI a b alo ahi blo bhi) blo
                  (flmJ a b alo ahi blo bhi) (by omega)]
                rw [IH m (by omega) alo (flmI a b alo ahi blo bhi) blo
                  (flmJ a b alo ahi blo bhi) (by omega)]
              · rw [if_neg h1, if_neg h1]
            · by_cases h2 : flmI a b alo ahi blo bhi +
                  flmK a b alo ahi blo bhi < ahi ∧
                  flmJ a b alo ahi blo bhi + flmK a b alo ahi blo bhi < bhi
              · rw [if_pos h2, if_pos h2]
                rw [IH f (by omega)
                  (flmI a b alo ahi blo bhi + flmK a b alo ahi blo bhi) ahi
                  (flmJ a b alo ahi blo bhi + flmK a b alo ahi blo bhi) bhi
                  (by omega)]
                rw [IH m (by omega)
                  (flmI a b alo ahi blo bhi + flmK a b alo ahi blo bhi) ahi
                  (flmJ a b alo ahi blo bhi + flmK a b alo ahi blo bhi) bhi
                  (by omega)]
              · rw [if_neg h2, if_neg h2]

/-- `matchesSum` satisfies the recursive block-decomposition equation. -/
theorem matchesSum_unfold (a b : Str) (alo ahi blo bhi : ℕ) :
    matchesSum a b alo ahi blo bhi =
      if flmK a b alo ahi blo bhi = 0 then 0
      else
        flmK a b alo ahi blo bhi +
          (if alo < flmI a b alo ahi blo bhi ∧ blo < flmJ a b alo ahi blo bhi
            then matchesSum a b alo (flmI a b alo ahi blo bhi) blo
              (flmJ a b alo ahi blo bhi)
            else 0) +
          (if flmI a b alo ahi blo bhi + flmK a b alo ahi blo bhi < ahi ∧
              flmJ a b alo ahi blo bhi + flmK a b alo ahi blo bhi < bhi
            then matchesSum a b
              (flmI a b alo ahi blo bhi + flmK a b alo ahi blo bhi) ahi
              (flmJ a b alo ahi blo bhi + flmK a b alo ahi blo bhi) bhi
            else 0) := by
  unfold matchesSum
  rcases hm : ahi - alo with _ | m
  · have hk0 : flmK a b alo ahi blo bhi = 0 := flmK_zero_of_empty (by omega)
    rw [if_pos hk0]
    rfl
  · simp only [matchesSumF]
    by_cases hk : flmK a b alo ahi blo bhi = 0
    · rw [if_pos hk, if_pos hk]
    · rw [if_neg hk, if_neg hk]
      have hb := flm_bounds a b alo ahi blo bhi hk
      congr 1
      · congr 1
        by_cases h1 : alo < flmI a b alo ahi blo bhi ∧
            blo < flmJ a b alo ahi blo bhi
        · rw [if_pos h1, if_pos h1]
          exact matchesSumF_eq a b m alo (flmI a b alo ahi blo bhi) blo
            (flmJ a b alo ahi blo bhi) (by omega)
        · rw [if_neg h1, if_neg h1]
      · by_cases h2 : flmI a b alo ahi blo bhi + flmK a b alo ahi blo bhi
            < ahi ∧
            flmJ a b alo ahi blo bhi + flmK a b alo ahi blo bhi < bhi
        · rw [if_pos h2, if_pos h2]
          exact matchesSumF_eq a b m
            (flmI a b alo ahi blo bhi + flmK a b alo ahi blo bhi) ahi
            (flmJ a b alo ahi blo bhi + flmK a b alo ahi blo bhi) bhi
            (by omega)
        · rw [if_neg h2, if_neg h2]

/-- `SequenceMatcher.ratio()` as an exact rational: `2 M / T`, and `1.0`
when both sequences are empty. -/
def ratioQ (a b : Str) : ℚ :=
  if a.length + b.length = 0 then 1
  else 2 * (matchesSum a b 0 a.length 0 b.length : ℚ) /
    ((a.length : ℚ) + (b.length : ℚ))

/-- `AuthorMatcher.calculate_similarity`. -/
def calcSim (str1 str2 : Str) : ℚ :=
  ratioQ (normalizeText str1) (normalizeText str2)

/-! ### Transliteration (`TRANSLIT_MAP`, `transliterate_to_russian`) -/

/-- `TRANSLIT_MAP`: keys of length 4, 2 and 1 (there are no 3-character
keys). -/
def translitPairs : List (Str × Char) :=
  [("shch".data, 'щ'), ("sh".data, 'ш'), ("ch".data, 'ч'), ("zh".data, 'ж'),
   ("kh".data, 'х'), ("ts".data, 'ц'), ("yu".data, 'ю'), ("ya".data, 'я'),
   ("yo".data, 'ё'), ("ye".data, 'е'),
   ("a".data, 'а'), ("b".data, 'б'), ("v".data, 'в'), ("g".data, 'г'),
   ("d".data, 'д'), ("e".data, 'е'), ("z".data, 'з'), ("i".data, 'и'),
   ("j".data, 'й'), ("k".data, 'к'), ("l".data, 'л'), ("m".data, 'м'),
   ("n".data, 'н'), ("o".data, 'о'), ("p".data, 'п'), ("r".data, 'р'),
   ("s".data, 'с'), ("t".data, 'т'), ("u".data, 'у'), ("f".data, 'ф'),
   ("y".data, 'ы'), ("w".data, 'в')]

/-- `substr in TRANSLIT_MAP` (and the lookup), for a prefix of length `n`
of the remaining text; `none` when the text is too short or the prefix is
not a key. -/
def tryTranslit (l : Str) (n : ℕ) : Option Char :=
  if n ≤ l.length then
    (translitPairs.find? (fun p => decide (p.1 = l.take n))).map (·.2)
  else none

/-- The scanning loop of `transliterate_to_russian`: greedily match key
lengths 4, 3, 2, 1 (there is no length-3 key, so that probe never hits);
unmatched characters pass through.  Every step consumes at least one
character, so the remaining length is an exact structural fuel (the
zero-fuel case is unreachable while characters remain). -/
def translitGoF : ℕ → Str → Str
  | _, [] => []
  | 0, l => l
  | fuel + 1, x :: xs =>
    match tryTranslit (x :: xs) 4 with
    | some c => c :: translitGoF fuel ((x :: xs).drop 4)
    | none =>
      match tryTranslit (x :: xs) 3 with
      | some c => c :: translitGoF fuel ((x :: xs).drop 3)
      | none =>
        match tryTranslit (x :: xs) 2 with
        | some c => c :: translitGoF fuel ((x :: xs).drop 2)
        | none =>
          match tryTranslit (x :: xs) 1 with
          | some c => c :: translitGoF fuel ((x :: xs).drop 1)
          | none => x :: translitGoF fuel xs

def translitGo (l : Str) : Str := translitGoF l.length l

/-- `transliterate_to_russian` (lowercases its input first). -/
def transliterateToRussian (text : Str) : Str :=
  translitGo (text.map pyLowerChar)

/-! ### The translation database (`AuthorMatcher.__init__`,
`_build_translation_map`, `_transliterate_to_english`) -/

/-- A value of the translation dictionary: the optional `"en"` key and the
`"variants"` key (`.get("variants", [])` makes an absent key the empty
list). -/
structure TransData where
  en : Option Str
  variants : List Str
deriving DecidableEq

/-- The translation dictionary, as an insertion-ordered association list
(modelling a Python `dict`). -/
abbrev Db := List (Str × TransData)

/-- Dictionary lookup `self.translation_db[author]` / membership test. -/
def dbFind (db : Db) (author : Str) : Option TransData :=
  (db.find? (fun e => decide (e.1 = author))).map (·.2)

/-- `common_translations`: the fixed Russian → English name-fragment
dictionary of `_build_translation_map`. -/
def commonTranslations : List (Str × Str) :=
  [("Пушкин".data, "Pushkin".data), ("Александр".data, "Alexander".data),
   ("Лермонтов".data, "Lermontov".data), ("Михаил".data, "Mikhail".data),
   ("Ахматова".data, "Akhmatova".data), ("Анна".data, "Anna".data),
   ("Блок".data, "Blok".data), ("Есенин".data, "Yesenin".data),
   ("Сергей".data, "Sergey".data), ("Цветаева".data, "Tsvetaeva".data),
   ("Марина".data, "Marina".data), ("Маяковский".data, "Mayakovsky".data),
   ("Владимир".data, "Vladimir".data), ("Пастернак".data, "Pasternak".data),
   ("Борис".data, "Boris".data), ("Тютчев".data, "Tyutchev".data),
   ("Фёдор".data, "Fyodor".data), ("Фет".data, "Fet".data),
   ("Афанасий".data, "Afanasy".data), ("Некрасов".data, "Nekrasov".data),
   ("Николай".data, "Nikolai".data), ("Бродский".data, "Brodsky".data),
   ("Иосиф".data, "Joseph".data), ("Мандельштам".data, "Mandelstam".data),
   ("Осип".data, "Osip".data)]

/-- `_transliterate_to_english`: translate each whitespace part through the
fixed dictionary, passing unknown parts through unchanged. -/
def transliterateToEnglish (russianName : Str) : Str :=
  joinSpace ((splitPy russianName).map (fun part =>
    match commonTranslations.find? (fun p => decide (p.1 = part)) with
    | some p => p.2
    | none => part))

/-- `_build_translation_map`: give each catalog author not already present
an entry `{en, variants = [en]}`. -/
def buildTranslationMap (authors : List Str) : Db :=
  authors.foldl (fun db author =>
    if (dbFind db author).isSome then db
    else db ++ [(author,
      { en := some (transliterateToEnglish author),
        variants := [transliterateToEnglish author] })]) []

/-- `AuthorMatcher.__init__`, with the file system made explicit:
`store = none` models "no path given, or the path does not exist"
(the constructor then synthesizes a table from the author list);
`store = some (.ok db)` models an existing file that `json.load` parses
(loaded verbatim); `store = some (.error ())` models an existing but
corrupt file, whose `json.load` exception propagates out of `__init__`. -/
def initTranslationDb (authors : List Str)
    (store : Option (Except Unit Db)) : Except Unit Db :=
  match store with
  | some (Except.ok db) => Except.ok db
  | some (Except.error e) => Except.error e
  | none => Except.ok (buildTranslationMap authors)

/-! ### `AuthorMatcher.match_author` -/

/-- `if score > best_score: best_score, best_match = score, author`. -/
def updateBest (best : ℚ × Option Str) (author : Str) (score : ℚ) :
    ℚ × Option Str :=
  if score > best.1 then (score, some author) else best

/-- The scores the per-author loop body compares against the running best
*without* an extra gate, in evaluation order: the transliterated-query
strategy (first and last name part, only when the query was detected as
English and the transliterated query is non-empty — Python's truthiness
test `if transliterated_query:`), the full Russian name, the Russian
surname (first part), the English full name, the English surname
(first part of `en`), and every variant. -/
def translitArgs (tq : Option Str) (author : Str) : List (Str × Str) :=
  match tq with
  | some t =>
    if t.isEmpty then []
    else
      match splitPy author with
      | [] => []
      | p :: ps =>
        [(t, normalizeText p),
         (t, normalizeText ((p :: ps).getLast (List.cons_ne_nil p ps)))]
  | none => []

/-- The Russian-surname strategy (first whitespace part, when any). -/
def ruSurnameArgs (query author : Str) : List (Str × Str) :=
  match splitPy author with
  | [] => []
  | p :: _ => [(query, p)]

/-- The English-translation strategies: full English name, English surname
(first part), and every variant. -/
def dbArgs (db : Db) (query author : Str) : List (Str × Str) :=
  match dbFind db author with
  | none => []
  | some td =>
    (match td.en with
     | none => []
     | some en =>
       [(query, en)] ++
       (match splitPy en with
        | [] => []
        | p :: _ => [(query, p)])) ++
    td.variants.map (fun v => (query, v))

/-- The argument pairs of all similarity calls the loop body compares
against the running best without an extra gate, in evaluation order. -/
def ungatedArgs (db : Db) (tq : Option Str) (query author : Str) :
    List (Str × Str) :=
  translitArgs tq author ++ [(query, author)] ++
    ruSurnameArgs query author ++ dbArgs db query author

def ungatedScores (db : Db) (tq : Option Str) (query author : Str) :
    List ℚ :=
  (ungatedArgs db tq query author).map (fun pr => calcSim pr.1 pr.2)

/-- `author.split()[-1] if ' ' in author else author` — raises `IndexError`
(modelled by `Except.error ()`) for an author that contains a space but
splits to nothing (e.g. `" "`). -/
def surnameE (author : Str) : Except Unit Str :=
  if ' ' ∈ author then
    match splitPy author with
    | [] => Except.error ()
    | p :: ps => Except.ok ((p :: ps).getLast (List.cons_ne_nil p ps))
  else Except.ok author

/-- The same surname selection, total; it agrees with `surnameE` exactly on
authors where the Python expression does not raise. -/
def surnameP (author : Str) : Str :=
  if ' ' ∈ author then
    match splitPy author with
    | [] => author
    | p :: ps => (p :: ps).getLast (List.cons_ne_nil p ps)
  else author

/-- The catalog entries on which `match_author` / `find_all_matches` do not
raise: an entry containing a space must split into at least one part. -/
def surnameOk (author : Str) : Prop :=
  (' ' ∈ author) → splitPy author ≠ []

instance (author : Str) : Decidable (surnameOk author) := by
  unfold surnameOk
  infer_instance

/-- One iteration of the `for author in self.authors` loop of
`match_author`: the ungated strategy updates, then the surname-only
strategy guarded by `surname_score > 0.8 and surname_score > best_score`;
the surname extraction may raise. -/
def processAuthorE (db : Db) (tq : Option Str) (query : Str)
    (best : ℚ × Option Str) (author : Str) : Except Unit (ℚ × Option Str) :=
  match surnameE author with
  | Except.error e => Except.error e
  | Except.ok sn =>
    Except.ok
      (if calcSim query sn > (0.8 : ℚ) ∧ calcSim query sn >
          ((ungatedScores db tq query author).foldl
            (fun acc s => updateBest acc author s) best).1
        then (calcSim query sn, some author)
        else (ungatedScores db tq query author).foldl
          (fun acc s => updateBest acc author s) best)

/-- The same loop body on guarded authors (no exception path). -/
def processAuthor (db : Db) (tq : Option Str) (query : Str)
    (best : ℚ × Option Str) (author : Str) : ℚ × Option Str :=
  if calcSim query (surnameP author) > (0.8 : ℚ) ∧
      calcSim query (surnameP author) >
        ((ungatedScores db tq query author).foldl
          (fun acc s => updateBest acc author s) best).1
    then (calcSim query (surnameP author), some author)
    else (ungatedScores db tq query author).foldl
      (fun acc s => updateBest acc author s) best

/-- `all(ord(c) < 128 or c.isspace() for c in query)`. -/
def isEnglishQ (query : Str) : Bool :=
  query.all (fun c => decide (c.toNat < 128) || pyIsSpace c)

/-- The transliterated query (`None` unless the query is Latin-only). -/
def tqOf (query : Str) : Option Str :=
  if isEnglishQ query then some (transliterateToRussian (normalizeText query))
  else none

/-- `AuthorMatcher.match_author(query, threshold)`: running best
initialized to `(threshold, None)`, updated strictly, over the catalog in
order. -/
def matchAuthorE (db : Db) (authors : List Str) (query : Str)
    (threshold : ℚ) : Except Unit (Option Str) :=
  (authors.foldlM (fun best a => processAuthorE db (tqOf query) query best a)
    ((threshold, none) : ℚ × Option Str)).map (fun b => b.2)

/-! ### `AuthorMatcher.find_all_matches` -/

/-- The ungated part of the `max_score` computation of `find_all_matches`:
`max_score = 0.0`, joined with the full-name score, then (when the author
has a translation entry) the English-name score and every variant score.
(Unlike `match_author`, no transliterated and no Russian/English surname
strategy takes part here.) -/
def faBase (db : Db) (query author : Str) : ℚ :=
  match dbFind db author with
  | none => max 0 (calcSim query author)
  | some td =>
    td.variants.foldl (fun acc v => max acc (calcSim query v))
      (match td.en with
       | none => max 0 (calcSim query author)
       | some en => max (max 0 (calcSim query author)) (calcSim query en))

/-- The per-author `max_score` of `find_all_matches`, with the surname-only
score joining the max only when it clears its own `> 0.8` floor; the
surname extraction may raise. -/
def faScoreE (db : Db) (query author : Str) : Except Unit ℚ :=
  match surnameE author with
  | Except.error e => Except.error e
  | Except.ok sn =>
    Except.ok (if calcSim query sn > (0.8 : ℚ)
      then max (faBase db query author) (calcSim query sn)
      else faBase db query author)

/-- `faScoreE` on guarded authors. -/
def faScore (db : Db) (query author : Str) : ℚ :=
  if calcSim query (surnameP author) > (0.8 : ℚ)
    then max (faBase db query author) (calcSim query (surnameP author))
    else faBase db query author

/-- `AuthorMatcher.find_all_matches(query, threshold, top_k)`: collect
`(author, max_score)` for every author whose max score reaches the
threshold, sort by descending score (stable sort, as Python's), truncate
to `top_k`. -/
def findAllMatchesE (db : Db) (authors : List Str) (query : Str)
    (threshold : ℚ) (topK : ℕ) : Except Unit (List (Str × ℚ)) :=
  (authors.foldlM (fun acc a =>
      (faScoreE db query a).map (fun s =>
        if s ≥ threshold then acc ++ [(a, s)] else acc))
    ([] : List (Str × ℚ))).map
    (fun ms => (ms.mergeSort (fun x y => decide (x.2 ≥ y.2))).take topK)

/-! ### `utils/intent.py` -/

/-- The ending list of the nested `stem_russian` of
`find_author_in_text`, in source order. -/
def stemEndings : List Str :=
  [("ова".data), ("ову".data), ("овой".data), ("овы".data),
   ("ина".data), ("ину".data), ("иной".data), ("ины".data),
   ("ева".data), ("еву".data), ("евой".data), ("евы".data),
   ("а".data), ("у".data), ("ой".data), ("ы".data), ("е".data), ("ё".data)]

/-- `stem_russian`: strip the first listed ending that matches, but only
when the *word* is longer than 4 characters. -/
def stemRussian (word : Str) : Str :=
  match stemEndings.find?
      (fun ending => decide (4 < word.length) && ending.isSuffixOf word) with
  | some ending => word.take (word.length - ending.length)
  | none => word

/-- `sorted(known_authors, key=lambda x: -len(x))` (stable, longest
first). -/
def sortByLenDesc (l : List Str) : List Str :=
  l.mergeSort (fun x y => decide (y.length ≤ x.length))

/-- The punctuation set of `w.strip('.,!?;:')`. -/
def punctChars : List Char := ['.', ',', '!', '?', ';', ':']

/-- `find_author_in_text(text, known_authors)`. -/
def findAuthorInText (text : Str) (knownAuthors : List Str) : Option Str :=
  (sortByLenDesc knownAuthors).findSome? (fun a =>
    if containsSub (text.map pyLowerChar) (a.map pyLowerChar) then some a
    else
      ((((splitPy (text.map pyLowerChar)).map (stripChars punctChars)).filter
          (fun w => decide (3 < w.length))).findSome? (fun word =>
        if containsSub (a.map pyLowerChar) word then some a
        else
          (splitPy (a.map pyLowerChar)).findSome? (fun authorWord =>
            if decide (3 < (stemRussian word).length) &&
                containsSub (stemRussian authorWord) (stemRussian word)
              then some a
            else if decide (3 < (stemRussian authorWord).length) &&
                containsSub (stemRussian word) (stemRussian authorWord)
              then some a
            else none))))

/-- `\w` of Python's `re` on the repertoire in use: ASCII alphanumerics,
underscore, and the Cyrillic block. -/
def isPyWordChar (c : Char) : Bool :=
  c.isAlphanum || c = '_' || decide ('Ѐ' ≤ c ∧ c ≤ 'ӿ')

/-- Does the lowercased keyword occur at position `i` of `t`
(case-insensitive, as under `re.I`)? -/
def kwMatchAt (t : Str) (i : ℕ) (kw : Str) : Bool :=
  decide (((t.drop i).take kw.length).map pyLowerChar = kw)

/-- `re.search(r"\b(kw1|kw2|...)\w*\b", t, re.I) is not None`: some keyword
occurs at a word boundary (the trailing `\w*\b` is always satisfiable by
extending to the end of the word, and each keyword starts with a word
character, so only the leading boundary constrains the match). -/
def kwSearch (kws : List Str) (t : Str) : Bool :=
  (List.range t.length).any (fun i =>
    (decide (i = 0) || !isPyWordChar (t.getD (i - 1) ' ')) &&
      kws.any (fun kw => kwMatchAt t i kw))

/-- The keyword group of the first regex of `detect_intent`. -/
def hintKws : List Str :=
  [("author".data), ("автор".data), ("похож".data), ("similar".data),
   ("like".data)]

/-- The keyword group of the second regex of `detect_intent`. -/
def authorKws : List Str := [("author".data), ("автор".data)]

/-- The possible return values of `detect_intent`. -/
inductive Intent where
  | author_search : Intent
  | poem_search : Intent
  | unknown : Intent
deriving DecidableEq

/-- `if known_authors:` followed by a successful `find_author_in_text`
(`known_authors = None` and `known_authors = []` are both falsy). -/
def foundKnown (t : Str) (knownAuthors : Option (List Str)) : Bool :=
  match knownAuthors with
  | some ks => if ks.isEmpty then false else (findAuthorInText t ks).isSome
  | none => false

/-- `detect_intent(text, known_authors)`. -/
def detectIntent (text : Str) (knownAuthors : Option (List Str)) : Intent :=
  if text.isEmpty || (pyStrip text).isEmpty then Intent.unknown
  else
    if (pyStrip text).count '\n' ≥ 2 ∨ 250 < (pyStrip text).length then
      Intent.poem_search
    else if kwSearch hintKws (pyStrip text) &&
        (foundKnown (pyStrip text) knownAuthors ||
          kwSearch authorKws (pyStrip text)) then
      Intent.author_search
    else if foundKnown (pyStrip text) knownAuthors then Intent.author_search
    else if (splitPy (pyStrip text)).length ≤ 5 then Intent.author_search
    else Intent.poem_search

/-! ### Running-best characterization of `match_author`

The sequence of strictly-improving updates performed for one author
collapses to a single comparison against that author's best effective
score (`effScore`), and the whole loop to a first-arg-max computation. -/

theorem init_le_foldl_max : ∀ (xs : List ℚ) (s : ℚ), s ≤ xs.foldl max s := by
  intro xs
  induction xs with
  | nil => intro s; exact le_refl s
  | cons x xs IH =>
    intro s
    exact le_trans (le_max_left s x) (IH (max s x))

theorem foldl_max_cases : ∀ (xs : List ℚ) (s : ℚ),
    xs.foldl max s = s ∨ xs.foldl max s ∈ xs := by
  intro xs
  induction xs with
  | nil => intro s; exact Or.inl rfl
  | cons x xs IH =>
    intro s
    rcases IH (max s x) with h | h
    · rcases max_cases s x with ⟨h2, _⟩ | ⟨h2, _⟩
      · exact Or.inl (by rw [List.foldl_cons, h, h2])
      · refine Or.inr ?_
        rw [List.foldl_cons, h, h2]
        exact List.mem_cons_self x xs
    · exact Or.inr (List.mem_cons_of_mem x h)

theorem foldl_max_le : ∀ (xs : List ℚ) (s c : ℚ), s ≤ c → (∀ x ∈ xs, x ≤ c) →
    xs.foldl max s ≤ c := by
  intro xs
  induction xs with
  | nil => intro s c hs _; exact hs
  | cons x xs IH =>
    intro s c hs hall
    exact IH (max s x) c
      (max_le hs (hall x (List.mem_cons_self x xs)))
      (fun y hy => hall y (List.mem_cons_of_mem x hy))

theorem mem_le_foldl_max : ∀ (xs : List ℚ) (s : ℚ) (x : ℚ), x ∈ xs →
    x ≤ xs.foldl max s := by
  intro xs
  induction xs with
  | nil => intro s x hx; exact absurd hx (List.not_mem_nil x)
  | cons y xs IH =>
    intro s x hx
    rcases List.mem_cons.mp hx with h | h
    · subst h
      exact le_trans (le_max_right s x) (init_le_foldl_max xs (max s x))
    · exact IH (max s y) x h

theorem foldl_max_init_max : ∀ (xs : List ℚ) (s t : ℚ),
    xs.foldl max (max s t) = max s (xs.foldl max t) := by
  intro xs
  induction xs with
  | nil => intro s t; rfl
  | cons x xs IH =>
    intro s t
    rw [List.foldl_cons, List.foldl_cons, max_assoc, IH]

/-- For a nonempty list of nonnegative entries, the running max from any
start `s` is `max s` of the running max from `0`. -/
theorem foldl_max_split : ∀ (xs : List ℚ) (s : ℚ), xs ≠ [] →
    (∀ x ∈ xs, 0 ≤ x) → xs.foldl max s = max s (xs.foldl max 0) := by
  intro xs s hne hall
  match xs with
  | x :: xs =>
    have hx0 : max (0 : ℚ) x = x :=
      max_eq_right (hall x (List.mem_cons_self x xs))
    rw [List.foldl_cons, List.foldl_cons, hx0]
    exact foldl_max_init_max xs s x

theorem updFold (author : Str) : ∀ (xs : List ℚ) (s : ℚ) (m : Option Str),
    xs.foldl (fun acc x => updateBest acc author x) (s, m) =
      (xs.foldl max s, if xs.foldl max s > s then some author else m) := by
  intro xs
  induction xs with
  | nil =>
    intro s m
    simp [lt_irrefl]
  | cons x xs IH =>
    intro s m
    rw [List.foldl_cons, List.foldl_cons]
    by_cases hx : x > s
    · have hstep : updateBest (s, m) author x = (x, some author) := by
        simp [updateBest, hx]
      rw [hstep, IH x (some author)]
      have hmax : max s x = x := max_eq_right (le_of_lt hx)
      rw [hmax]
      have h1 : xs.foldl max x > s :=
        lt_of_lt_of_le hx (init_le_foldl_max xs x)
      simp [h1]
    · have hstep : updateBest (s, m) author x = (s, m) := by
        simp [updateBest, hx]
      rw [hstep, IH s m]
      have hmax : max s x = s := max_eq_left (le_of_not_lt hx)
      rw [hmax]

/-- The effective score an author contributes to the running best: the max
of the ungated strategy scores, joined by the surname-only score when the
latter clears its `0.8` floor. -/
def effScore (db : Db) (tq : Option Str) (query author : Str) : ℚ :=
  if calcSim query (surnameP author) > (0.8 : ℚ) then
    max ((ungatedScores db tq query author).foldl max 0)
      (calcSim query (surnameP author))
  else (ungatedScores db tq query author).foldl max 0

theorem calcSim_mem_ungated (db : Db) (tq : Option Str) (query author : Str) :
    calcSim query author ∈ ungatedScores db tq query author := by
  unfold ungatedScores ungatedArgs
  refine List.mem_map.mpr ⟨(query, author), ?_, rfl⟩
  simp [List.mem_append]

theorem ungatedScores_ne_nil (db : Db) (tq : Option Str) (query author : Str) :
    ungatedScores db tq query author ≠ [] :=
  List.ne_nil_of_mem (calcSim_mem_ungated db tq query author)

theorem matchesSum_nonneg (a b : Str) (alo ahi blo bhi : ℕ) :
    0 ≤ matchesSum a b alo ahi blo bhi := Nat.zero_le _

theorem ratioQ_nonneg (a b : Str) : 0 ≤ ratioQ a b := by
  unfold ratioQ
  split
  · norm_num
  · rename_i h
    apply div_nonneg
    · positivity
    · have h2 : 0 < a.length + b.length := Nat.pos_of_ne_zero h
      have h3 : (0 : ℚ) < (a.length : ℚ) + (b.length : ℚ) := by
        exact_mod_cast h2
      linarith

theorem calcSim_nonneg (s1 s2 : Str) : 0 ≤ calcSim s1 s2 :=
  ratioQ_nonneg _ _

theorem ungatedScores_nonneg (db : Db) (tq : Option Str) (query author : Str) :
    ∀ x ∈ ungatedScores db tq query author, 0 ≤ x := by
  intro x hx
  rcases List.mem_map.mp hx with ⟨pr, _, hpr⟩
  rw [← hpr]
  exact calcSim_nonneg pr.1 pr.2

/-- The whole per-author sequence of strict updates acts on the running
best exactly as a single strict comparison with `effScore`. -/
theorem processAuthor_eq (db : Db) (tq : Option Str) (query : Str)
    (s : ℚ) (m : Option Str) (author : Str) :
    processAuthor db tq query (s, m) author =
      if effScore db tq query author > s
        then (effScore db tq query author, some author) else (s, m) := by
  unfold processAuthor effScore
  rw [updFold author (ungatedScores db tq query author) s m]
  rw [foldl_max_split (ungatedScores db tq query author) s
    (ungatedScores_ne_nil db tq query author)
    (ungatedScores_nonneg db tq query author)]
  set U := (ungatedScores db tq query author).foldl max 0 with hU
  set ss := calcSim query (surnameP author) with hss
  simp only
  by_cases h8 : ss > (0.8 : ℚ)
  · rw [if_pos h8]
    by_cases hgt : ss > max s U
    · rw [if_pos ⟨h8, hgt⟩]
      have heff : max U ss = ss :=
        max_eq_right (le_of_lt (lt_of_le_of_lt (le_max_right s U) hgt))
      have hs2 : max U ss > s := by
        rw [heff]
        exact lt_of_le_of_lt (le_max_left s U) hgt
      rw [if_pos hs2, heff]
    · rw [if_neg (fun hc => hgt hc.2)]
      by_cases hUs : U > s
      · have hF : max s U = U := max_eq_right (le_of_lt hUs)
        have hssU : ss ≤ U := by
          rw [hF] at hgt
          exact le_of_not_lt hgt
        have heff : max U ss = U := max_eq_left hssU
        rw [heff, if_pos hUs, hF, if_pos hUs]
      · have hF : max s U = s := max_eq_left (le_of_not_lt hUs)
        have heffle : max U ss ≤ s :=
          max_le (le_of_not_lt hUs) (le_of_not_lt (hF ▸ hgt))
        rw [hF, if_neg (lt_irrefl s), if_neg (not_lt.mpr heffle)]
  · rw [if_neg h8, if_neg (fun hc => h8 hc.1)]
    by_cases hUs : U > s
    · have hF : max s U = U := max_eq_right (le_of_lt hUs)
      rw [hF, if_pos hUs, if_pos hUs]
    · have hF : max s U = s := max_eq_left (le_of_not_lt hUs)
      rw [hF, if_neg (lt_irrefl s), if_neg hUs]

/-- The `match_author` loop as a pure fold. -/
def runBest (db : Db) (tq : Option Str) (query : Str) (authors : List Str)
    (init : ℚ × Option Str) : ℚ × Option Str :=
  authors.foldl (processAuthor db tq query) init

/-- First-arg-max characterization of the running best: the final score is
the running maximum of the effective scores (and the initial threshold),
and the final match is the first author attaining it, when it beat the
threshold. -/
theorem runBest_spec (db : Db) (tq : Option Str) (query : Str) :
    ∀ (l : List Str) (s : ℚ) (m : Option Str),
      runBest db tq query l (s, m) =
        ((l.map (effScore db tq query)).foldl max s,
         if (l.map (effScore db tq query)).foldl max s > s
           then l.find? (fun a => decide (effScore db tq query a =
             (l.map (effScore db tq query)).foldl max s))
           else m) := by
  intro l
  induction l with
  | nil =>
    intro s m
    simp [runBest, lt_irrefl]
  | cons a l IH =>
    intro s m
    have hstep : runBest db tq query (a :: l) (s, m) =
        runBest db tq query l (processAuthor db tq query (s, m) a) := rfl
    rw [hstep, processAuthor_eq]
    by_cases ha : effScore db tq query a > s
    · rw [if_pos ha, IH]
      have hmax : max s (effScore db tq query a) = effScore db tq query a :=
        max_eq_right (le_of_lt ha)
      rw [List.map_cons, List.foldl_cons, hmax]
      set F := (l.map (effScore db tq query)).foldl max
        (effScore db tq query a) with hF
      have hFge : effScore db tq query a ≤ F := init_le_foldl_max _ _
      have hFs : F > s := lt_of_lt_of_le ha hFge
      rw [if_pos hFs]
      rcases eq_or_lt_of_le hFge with heq | hlt
      · rw [if_neg (by rw [← heq]; exact lt_irrefl _)]
        rw [List.find?_cons_of_pos _ (by simp [← heq])]
      · rw [if_pos hlt]
        rw [List.find?_cons_of_neg _ (by simp; exact ne_of_lt hlt)]
    · rw [if_neg ha, IH]
      have hmax : max s (effScore db tq query a) = s :=
        max_eq_left (le_of_not_lt ha)
      rw [List.map_cons, List.foldl_cons, hmax]
      set F := (l.map (effScore db tq query)).foldl max s with hF
      by_cases hFs : F > s
      · rw [if_pos hFs, if_pos hFs]
        rw [List.find?_cons_of_neg _ (by
          simp
          intro hc
          rw [hc] at ha
          exact ha hFs)]
      · rw [if_neg hFs, if_neg hFs]

theorem surnameE_ok {author : Str} (h : surnameOk author) :
    surnameE author = Except.ok (surnameP author) := by
  unfold surnameE surnameP
  by_cases hsp : ' ' ∈ author
  · rw [if_pos hsp, if_pos hsp]
    rcases hs : splitPy author with _ | ⟨p, ps⟩
    · exact absurd hs (h hsp)
    · rfl
  · rw [if_neg hsp, if_neg hsp]

theorem surnameE_err {author : Str} (h : ¬ surnameOk author) :
    surnameE author = Except.error () := by
  unfold surnameOk at h
  push_neg at h
  unfold surnameE
  rw [if_pos h.1, h.2]

theorem processAuthorE_ok (db : Db) (tq : Option Str) (query : Str)
    (best : ℚ × Option Str) {author : Str} (h : surnameOk author) :
    processAuthorE db tq query best author =
      Except.ok (processAuthor db tq query best author) := by
  unfold processAuthorE processAuthor
  rw [surnameE_ok h]

theorem processAuthorE_err (db : Db) (tq : Option Str) (query : Str)
    (best : ℚ × Option Str) {author : Str} (h : ¬ surnameOk author) :
    processAuthorE db tq query best author = Except.error () := by
  unfold processAuthorE
  rw [surnameE_err h]

theorem foldlME_ok (db : Db) (tq : Option Str) (query : Str) :
    ∀ (l : List Str) (init : ℚ × Option Str), (∀ a ∈ l, surnameOk a) →
      l.foldlM (fun best a => processAuthorE db tq query best a) init =
        Except.ok (l.foldl (processAuthor db tq query) init) := by
  intro l
  induction l with
  | nil => intro init _; rfl
  | cons a l IH =>
    intro init hall
    rw [List.foldlM_cons, processAuthorE_ok db tq query init
      (hall a (List.mem_cons_self a l))]
    show List.foldlM _ (processAuthor db tq query init a) l = _
    rw [IH (processAuthor db tq query init a)
      (fun b hb => hall b (List.mem_cons_of_mem a hb))]
    rfl

theorem foldlME_err (db : Db) (tq : Option Str) (query : Str) :
    ∀ (l : List Str) (init : ℚ × Option Str), (∃ a ∈ l, ¬ surnameOk a) →
      l.foldlM (fun best a => processAuthorE db tq query best a) init =
        Except.error () := by
  intro l
  induction l with
  | nil =>
    intro init h
    rcases h with ⟨a, ha, _⟩
    exact absurd ha (List.not_mem_nil a)
  | cons a l IH =>
    intro init hbad
    rw [List.foldlM_cons]
    by_cases hga : surnameOk a
    · rw [processAuthorE_ok db tq query init hga]
      show List.foldlM _ (processAuthor db tq query init a) l = _
      apply IH
      rcases hbad with ⟨b, hb, hbbad⟩
      rcases List.mem_cons.mp hb with h | h
      · exact absurd hga (h ▸ hbbad)
      · exact ⟨b, h, hbbad⟩
    · rw [processAuthorE_err db tq query init hga]
      rfl

theorem matchAuthorE_ok (db : Db) (l : List Str) (query : Str) (t : ℚ)
    (h : ∀ a ∈ l, surnameOk a) :
    matchAuthorE db l query t =
      Except.ok ((runBest db (tqOf query) query l (t, none)).2) := by
  unfold matchAuthorE runBest
  rw [foldlME_ok db (tqOf query) query l (t, none) h]
  rfl

theorem matchAuthorE_err (db : Db) (l : List Str) (query : Str) (t : ℚ)
    (h : ∃ a ∈ l, ¬ surnameOk a) :
    matchAuthorE db l query t = Except.error () := by
  unfold matchAuthorE
  rw [foldlME_err db (tqOf query) query l (t, none) h]
  rfl

/-- Complete characterization of `match_author` on catalogs that avoid the
`IndexError` path. -/
theorem matchAuthorE_char (db : Db) (l : List Str) (query : Str) (t : ℚ)
    (h : ∀ a ∈ l, surnameOk a) :
    matchAuthorE db l query t = Except.ok
      (if (l.map (effScore db (tqOf query) query)).foldl max t > t
        then l.find? (fun a => decide (effScore db (tqOf query) query a =
          (l.map (effScore db (tqOf query) query)).foldl max t))
        else none) := by
  rw [matchAuthorE_ok db l query t h, runBest_spec db (tqOf query) query l t none]

theorem attain_of_gt {l : List ℚ} {t : ℚ} (h : l.foldl max t > t) :
    l.foldl max t ∈ l := by
  rcases foldl_max_cases l t with hc | hc
  · rw [hc] at h
    exact absurd h (lt_irrefl t)
  · exact hc

/-! ### Characterization of `find_all_matches` -/

theorem faScoreE_ok (db : Db) (query : Str) {author : Str}
    (h : surnameOk author) :
    faScoreE db query author = Except.ok (faScore db query author) := by
  unfold faScoreE faScore
  rw [surnameE_ok h]

theorem faScoreE_err (db : Db) (query : Str) {author : Str}
    (h : ¬ surnameOk author) :
    faScoreE db query author = Except.error () := by
  unfold faScoreE
  rw [surnameE_err h]

/-- The pre-sort `matches` list of `find_all_matches`. -/
def faList (db : Db) (query : Str) (t : ℚ) (l : List Str) :
    List (Str × ℚ) :=
  l.filterMap (fun a =>
    if faScore db query a ≥ t then some (a, faScore db query a) else none)

theorem faList_cons (db : Db) (query : Str) (t : ℚ) (a : Str) (l : List Str) :
    faList db query t (a :: l) =
      if faScore db query a ≥ t
        then (a, faScore db query a) :: faList db query t l
        else faList db query t l := by
  unfold faList
  rw [List.filterMap_cons]
  by_cases hc : faScore db query a ≥ t
  · rw [if_pos hc, if_pos hc]
  · rw [if_neg hc, if_neg hc]

theorem faFold_ok (db : Db) (query : Str) (t : ℚ) :
    ∀ (l : List Str) (acc : List (Str × ℚ)), (∀ a ∈ l, surnameOk a) →
      l.foldlM (fun acc a => (faScoreE db query a).map (fun s =>
          if s ≥ t then acc ++ [(a, s)] else acc)) acc =
        Except.ok (acc ++ faList db query t l) := by
  intro l
  induction l with
  | nil =>
    intro acc _
    show Except.ok acc = _
    rw [faList]
    simp
  | cons a l IH =>
    intro acc hall
    rw [List.foldlM_cons, faScoreE_ok db query (hall a (List.mem_cons_self a l))]
    have hstep : ∀ acc2, (Except.ok acc2 : Except Unit (List (Str × ℚ))) >>=
        (fun acc2 => l.foldlM (fun acc a => (faScoreE db query a).map (fun s =>
          if s ≥ t then acc ++ [(a, s)] else acc)) acc2) =
        l.foldlM (fun acc a => (faScoreE db query a).map (fun s =>
          if s ≥ t then acc ++ [(a, s)] else acc)) acc2 := fun _ => rfl
    show _ >>= _ = _
    rw [show ((Except.ok (faScore db query a)).map (fun s =>
        if s ≥ t then acc ++ [(a, s)] else acc) : Except Unit _) =
      Except.ok (if faScore db query a ≥ t
        then acc ++ [(a, faScore db query a)] else acc) from rfl]
    rw [hstep, IH _ (fun b hb => hall b (List.mem_cons_of_mem a hb))]
    rw [faList_cons]
    by_cases hc : faScore db query a ≥ t
    · rw [if_pos hc, if_pos hc, List.append_assoc]
      rfl
    · rw [if_neg hc, if_neg hc]

theorem faFold_err (db : Db) (query : Str) (t : ℚ) :
    ∀ (l : List Str) (acc : List (Str × ℚ)), (∃ a ∈ l, ¬ surnameOk a) →
      l.foldlM (fun acc a => (faScoreE db query a).map (fun s =>
          if s ≥ t then acc ++ [(a, s)] else acc)) acc =
        Except.error () := by
  intro l
  induction l with
  | nil =>
    intro acc h
    rcases h with ⟨a, ha, _⟩
    exact absurd ha (List.not_mem_nil a)
  | cons a l IH =>
    intro acc hbad
    rw [List.foldlM_cons]
    by_cases hga : surnameOk a
    · rw [faScoreE_ok db query hga]
      show List.foldlM _ _ l = _
      apply IH
      rcases hbad with ⟨b, hb, hbbad⟩
      rcases List.mem_cons.mp hb with h | h
      · exact absurd hga (h ▸ hbbad)
      · exact ⟨b, h, hbbad⟩
    · rw [faScoreE_err db query hga]
      rfl

/-- Comparison used to sort `matches` (descending by score). -/
def faLe (x y : Str × ℚ) : Bool := decide (x.2 ≥ y.2)

theorem findAllMatchesE_ok (db : Db) (l : List Str) (query : Str) (t : ℚ)
    (k : ℕ) (h : ∀ a ∈ l, surnameOk a) :
    findAllMatchesE db l query t k =
      Except.ok (((faList db query t l).mergeSort faLe).take k) := by
  unfold findAllMatchesE
  rw [faFold_ok db query t l [] h]
  rfl

theorem findAllMatchesE_err (db : Db) (l : List Str) (query : Str) (t : ℚ)
    (k : ℕ) (h : ∃ a ∈ l, ¬ surnameOk a) :
    findAllMatchesE db l query t k = Except.error () := by
  unfold findAllMatchesE
  rw [faFold_err db query t l [] h]
  rfl

theorem mem_faList {db : Db} {query : Str} {t : ℚ} {l : List Str}
    {p : Str × ℚ} :
    p ∈ faList db query t l ↔
      p.1 ∈ l ∧ p.2 = faScore db query p.1 ∧ p.2 ≥ t := by
  unfold faList
  rw [List.mem_filterMap]
  constructor
  · rintro ⟨a, ha, hfa⟩
    by_cases hc : faScore db query a ≥ t
    · rw [if_pos hc] at hfa
      rcases Option.some.injEq _ _ ▸ hfa with h2
      have h3 := Option.some.inj hfa
      rw [← h3]
      exact ⟨ha, rfl, hc⟩
    · rw [if_neg hc] at hfa
      exact absurd hfa (Option.noConfusion)
  · rintro ⟨h1, h2, h3⟩
    refine ⟨p.1, h1, ?_⟩
    rw [if_pos (h2 ▸ h3), ← h2]

/-! ### `ratio` of a sequence with itself

On identical sequences, the best block is diagonal, and the extension
loops (which ignore the popularity purge) stretch it across the whole
window, so `get_matching_blocks` covers everything: `ratio(y, y) = 1`. -/

theorem isBlockB_diag_left {y : Str} {lo hi i j k : ℕ}
    (h : isBlockB y y lo hi lo hi i j k = true) :
    isBlockB y y lo hi lo hi j j k = true := by
  rcases isBlockB_bounds h with ⟨h1, h2, h3, h4⟩
  have hc := isBlockB_content h
  apply isBlockB_intro h3 h4 h3 h4
  intro m hm
  exact ⟨rfl, (hc m hm).2⟩

theorem isBlockB_diag_right {y : Str} {lo hi i j k : ℕ}
    (h : isBlockB y y lo hi lo hi i j k = true) :
    isBlockB y y lo hi lo hi i i k = true := by
  rcases isBlockB_bounds h with ⟨h1, h2, h3, h4⟩
  have hc := isBlockB_content h
  apply isBlockB_intro h1 h2 h1 h2
  intro m hm
  refine ⟨rfl, ?_⟩
  rw [(hc m hm).1]
  exact (hc m hm).2

theorem bestI_min {a b : Str} {alo ahi blo bhi : ℕ}
    (h : bestSize a b alo ahi blo bhi ≠ 0) {m : ℕ}
    (hm : m < bestI a b alo ahi blo bhi) :
    ¬ bestIP a b alo ahi blo bhi m = true := by
  have hf := bestI_find h
  rw [List.range_eq_range'] at hf
  exact (find?_range_spec (ahi + 1) 0 hf).2.2 m (Nat.zero_le m) hm

theorem bestJ_le {a b : Str} {alo ahi blo bhi : ℕ}
    (h : bestSize a b alo ahi blo bhi ≠ 0) {j : ℕ}
    (hJP : bestJP a b alo ahi blo bhi j = true) :
    bestJ a b alo ahi blo bhi ≤ j := by
  have hf := bestJ_find h
  rw [List.range_eq_range'] at hf
  by_contra hlt
  exact (find?_range_spec (bhi + 1) 0 hf).2.2 j (Nat.zero_le j)
    (by omega) hJP

/-- On identical sequences the maximal block the DP returns is diagonal. -/
theorem best_diag {y : Str} {lo hi : ℕ}
    (h : bestSize y y lo hi lo hi ≠ 0) :
    bestJ y y lo hi lo hi = bestI y y lo hi lo hi := by
  have hb := best_block h
  rcases isBlockB_bounds hb with ⟨h1, h2, h3, h4⟩
  have hII := isBlockB_diag_right hb
  have hJJ := isBlockB_diag_left hb
  have hk : bestSize y y lo hi lo hi ≥ 1 := Nat.one_le_iff_ne_zero.mpr h
  have hle : bestJ y y lo hi lo hi ≤ bestI y y lo hi lo hi := by
    apply bestJ_le h
    simp only [bestJP, Bool.and_eq_true, decide_eq_true_eq]
    exact ⟨by omega, hII⟩
  rcases lt_or_eq_of_le hle with hlt | heq
  · exfalso
    apply bestI_min h hlt
    simp only [bestIP, Bool.and_eq_true, decide_eq_true_eq, List.any_eq_true,
      List.mem_range]
    exact ⟨by omega, bestJ y y lo hi lo hi, by omega, hJJ⟩
  · exact heq

theorem extendLeft_self (y : Str) (lo : ℕ) :
    ∀ i k, lo ≤ i → extendLeft y y lo lo i i k = (lo, lo, k + (i - lo)) := by
  intro i
  induction i using Nat.strong_induction_on with
  | _ i IH =>
    intro k hlo
    rw [extendLeft_eq]
    by_cases hl : lo < i
    · rw [if_pos ⟨hl, hl, rfl⟩]
      rw [IH (i - 1) (by omega) (k + 1) (by omega)]
      have harith : k + 1 + (i - 1 - lo) = k + (i - lo) := by omega
      rw [harith]
    · rw [if_neg (fun hc => hl hc.1)]
      have hi : i = lo := by omega
      subst hi
      rw [Nat.sub_self]
      rfl

theorem extendRight_self (y : Str) (hi i : ℕ) :
    ∀ n k, hi - (i + k) ≤ n → i + k ≤ hi →
      extendRight y y hi hi i i k = hi - i := by
  intro n
  induction n with
  | zero =>
    intro k h1 h2
    rw [extendRight_eq, if_neg (fun hc => absurd hc.1 (by omega))]
    omega
  | succ n IH =>
    intro k h1 h2
    by_cases hk : i + k < hi
    · rw [extendRight_eq, if_pos ⟨hk, hk, rfl⟩]
      exact IH (k + 1) (by omega) (by omega)
    · rw [extendRight_eq, if_neg (fun hc => absurd hc.1 hk)]
      omega

/-- `find_longest_match` on an identical pair of windows returns the whole
window. -/
theorem flm_self (y : Str) (lo hi : ℕ) (hle : lo ≤ hi) :
    flm y y lo hi lo hi = (lo, lo, hi - lo) := by
  by_cases hz : bestSize y y lo hi lo hi = 0
  · rcases best_of_size_zero hz with ⟨hI, hJ⟩
    have hL : extendLeft y y lo lo (bestI y y lo hi lo hi)
        (bestJ y y lo hi lo hi) (bestSize y y lo hi lo hi) = (lo, lo, 0) := by
      rw [hI, hJ, hz, extendLeft_self y lo lo 0 (le_refl lo)]
      simp
    rw [flm_eq y y lo hi lo hi hL]
    rw [extendRight_self y hi lo (hi - lo) 0 (by omega) (by omega)]
  · have hd := best_diag hz
    have hb := best_block hz
    rcases isBlockB_bounds hb with ⟨h1, h2, h3, h4⟩
    have hL : extendLeft y y lo lo (bestI y y lo hi lo hi)
        (bestJ y y lo hi lo hi) (bestSize y y lo hi lo hi) =
        (lo, lo, bestSize y y lo hi lo hi +
          (bestI y y lo hi lo hi - lo)) := by
      rw [hd]
      exact extendLeft_self y lo _ _ h1
    rw [flm_eq y y lo hi lo hi hL]
    rw [extendRight_self y hi lo (hi - lo) _ (by omega) (by omega)]

theorem matchesSum_self (y : Str) (lo hi : ℕ) (hle : lo ≤ hi) :
    matchesSum y y lo hi lo hi = hi - lo := by
  have hflm := flm_self y lo hi hle
  have hI : flmI y y lo hi lo hi = lo := by
    unfold flmI
    rw [hflm]
  have hJ : flmJ y y lo hi lo hi = lo := by
    unfold flmJ
    rw [hflm]
  have hK : flmK y y lo hi lo hi = hi - lo := by
    unfold flmK
    rw [hflm]
  rw [matchesSum_unfold]
  by_cases h0 : hi - lo = 0
  · rw [if_pos (by rw [hK]; exact h0)]
    omega
  · rw [if_neg (by rw [hK]; exact h0)]
    rw [if_neg (by rw [hI]; exact fun hc => lt_irrefl lo hc.1)]
    rw [if_neg (by rw [hI, hK]; exact fun hc => absurd hc.1 (by omega))]
    omega

theorem ratioQ_self (y : Str) : ratioQ y y = 1 := by
  unfold ratioQ
  by_cases h0 : y.length + y.length = 0
  · rw [if_pos h0]
  · rw [if_neg h0]
    rw [matchesSum_self y 0 y.length (Nat.zero_le _)]
    have hn : y.length ≠ 0 := by omega
    have hq : (y.length : ℚ) ≠ 0 := by exact_mod_cast hn
    rw [Nat.sub_zero]
    field_simp
    ring

theorem calcSim_self (x : Str) : calcSim x x = 1 := ratioQ_self _

/-! ### `ratio` reaches `1` exactly on equal sequences

The block sum never exceeds either window size, and exhausting both
windows forces them to be pointwise equal.  Hence `ratio(a, b) = 1` iff
`a = b`, which is the (order-independent) perfect-match criterion. -/

theorem matchesSum_le_aux (a b : Str) :
    ∀ n alo ahi blo bhi, ahi - alo ≤ n →
      matchesSum a b alo ahi blo bhi ≤ ahi - alo ∧
      matchesSum a b alo ahi blo bhi ≤ bhi - blo := by
  intro n
  induction n with
  | zero =>
    intro alo ahi blo bhi hn
    rw [matchesSum_unfold]
    by_cases hk : flmK a b alo ahi blo bhi = 0
    · rw [if_pos hk]
      omega
    · exfalso
      have := flm_bounds a b alo ahi blo bhi hk
      omega
  | succ n IH =>
    intro alo ahi blo bhi hn
    rw [matchesSum_unfold]
    by_cases hk : flmK a b alo ahi blo bhi = 0
    · rw [if_pos hk]
      omega
    · rw [if_neg hk]
      have hb := flm_bounds a b alo ahi blo bhi hk
      by_cases h1 : alo < flmI a b alo ahi blo bhi ∧
          blo < flmJ a b alo ahi blo bhi
      · rw [if_pos h1]
        have hIH1 := IH alo (flmI a b alo ahi blo bhi) blo
          (flmJ a b alo ahi blo bhi) (by omega)
        by_cases h2 : flmI a b alo ahi blo bhi + flmK a b alo ahi blo bhi < ahi ∧
            flmJ a b alo ahi blo bhi + flmK a b alo ahi blo bhi < bhi
        · rw [if_pos h2]
          have hIH2 := IH
            (flmI a b alo ahi blo bhi + flmK a b alo ahi blo bhi) ahi
            (flmJ a b alo ahi blo bhi + flmK a b alo ahi blo bhi) bhi (by omega)
          omega
        · rw [if_neg h2]
          omega
      · rw [if_neg h1]
        by_cases h2 : flmI a b alo ahi blo bhi + flmK a b alo ahi blo bhi < ahi ∧
            flmJ a b alo ahi blo bhi + flmK a b alo ahi blo bhi < bhi
        · rw [if_pos h2]
          have hIH2 := IH
            (flmI a b alo ahi blo bhi + flmK a b alo ahi blo bhi) ahi
            (flmJ a b alo ahi blo bhi + flmK a b alo ahi blo bhi) bhi (by omega)
          omega
        · rw [if_neg h2]
          omega

theorem matchesSum_le (a b : Str) (alo ahi blo bhi : ℕ) :
    matchesSum a b alo ahi blo bhi ≤ ahi - alo ∧
    matchesSum a b alo ahi blo bhi ≤ bhi - blo :=
  matchesSum_le_aux a b (ahi - alo) alo ahi blo bhi (le_refl _)

theorem extendLeft_content (a b : Str) (alo blo : ℕ) :
    ∀ i j k, (∀ m < k, a.getD (i + m) ' ' = b.getD (j + m) ' ') →
      ∀ i2 j2 k2, extendLeft a b alo blo i j k = (i2, j2, k2) →
      ∀ m < k2, a.getD (i2 + m) ' ' = b.getD (j2 + m) ' ' := by
  intro i
  induction i using Nat.strong_induction_on with
  | _ i IH =>
    intro j k hcont i2 j2 k2 heq
    rw [extendLeft_eq] at heq
    split at heq
    · rename_i hg
      refine IH (i - 1) (by omega) (j - 1) (k + 1) ?_ i2 j2 k2 heq
      intro m hm
      by_cases hm0 : m = 0
      · subst hm0
        simpa using hg.2.2
      · have hia : i - 1 + m = i + (m - 1) := by omega
        have hja : j - 1 + m = j + (m - 1) := by omega
        rw [hia, hja]
        exact hcont (m - 1) (by omega)
    · have hi2 : i = i2 := congrArg Prod.fst heq
      have hj2 : j = j2 := congrArg (fun p => p.2.1) heq
      have hk2 : k = k2 := congrArg (fun p => p.2.2) heq
      subst hi2
      subst hj2
      subst hk2
      exact hcont

theorem extendRight_content (a b : Str) (ahi bhi i j : ℕ) :
    ∀ n k, ahi - (i + k) ≤ n →
      (∀ m < k, a.getD (i + m) ' ' = b.getD (j + m) ' ') →
      ∀ m < extendRight a b ahi bhi i j k,
        a.getD (i + m) ' ' = b.getD (j + m) ' ' := by
  intro n
  induction n with
  | zero =>
    intro k hn hcont
    rw [extendRight_eq, if_neg (fun hc => absurd hc.1 (by omega))]
    exact hcont
  | succ n IH =>
    intro k hn hcont
    rw [extendRight_eq]
    split
    · rename_i hg
      refine IH (k + 1) (by omega) ?_
      intro m hm
      by_cases hmk : m = k
      · subst hmk
        exact hg.2.2
      · exact hcont m (by omega)
    · exact hcont

/-- All positions of the block returned by `find_longest_match` carry equal
characters. -/
theorem flm_content (a b : Str) (alo ahi blo bhi : ℕ) :
    ∀ m < flmK a b alo ahi blo bhi,
      a.getD (flmI a b alo ahi blo bhi + m) ' ' =
        b.getD (flmJ a b alo ahi blo bhi + m) ' ' := by
  have hbase : ∀ m < bestSize a b alo ahi blo bhi,
      a.getD (bestI a b alo ahi blo bhi + m) ' ' =
        b.getD (bestJ a b alo ahi blo bhi + m) ' ' := by
    intro m hm
    by_cases hz : bestSize a b alo ahi blo bhi = 0
    · omega
    · exact ((isBlockB_content (best_block hz)) m hm).1
  rcases extendLeft_inv a b alo blo (bestI a b alo ahi blo bhi)
      (bestJ a b alo ahi blo bhi) (bestSize a b alo ahi blo bhi) with
    ⟨i2, j2, k2, heq, _, _, _, _, _⟩
  have hcont2 := extendLeft_content a b alo blo _ _ _ hbase i2 j2 k2 heq
  have hflm := flm_eq a b alo ahi blo bhi heq
  unfold flmI flmJ flmK
  rw [hflm]
  simp only
  exact extendRight_content a b ahi bhi i2 j2 (ahi - (i2 + k2)) k2
    (le_refl _) hcont2

/-- A block decomposition that exhausts both windows forces the windows to
agree pointwise. -/
theorem matchesSum_full (a b : Str) :
    ∀ n alo ahi blo bhi, ahi - alo ≤ n →
      matchesSum a b alo ahi blo bhi = ahi - alo →
      matchesSum a b alo ahi blo bhi = bhi - blo →
      ∀ m < ahi - alo, a.getD (alo + m) ' ' = b.getD (blo + m) ' ' := by
  intro n
  induction n with
  | zero =>
    intro alo ahi blo bhi hn _ _ m hm
    omega
  | succ n IH =>
    intro alo ahi blo bhi hn hA hB m hm
    rw [matchesSum_unfold] at hA hB
    by_cases hk : flmK a b alo ahi blo bhi = 0
    · rw [if_pos hk] at hA
      omega
    · rw [if_neg hk] at hA hB
      have hb := flm_bounds a b alo ahi blo bhi hk
      have hcont := flm_content a b alo ahi blo bhi
      set i := flmI a b alo ahi blo bhi with hi
      set j := flmJ a b alo ahi blo bhi with hj
      set k := flmK a b alo ahi blo bhi with hk2
      by_cases h1 : alo < i ∧ blo < j
      · rw [if_pos h1] at hA hB
        have hle1 := matchesSum_le a b alo i blo j
        by_cases h2 : i + k < ahi ∧ j + k < bhi
        · rw [if_pos h2] at hA hB
          have hle2 := matchesSum_le a b (i + k) ahi (j + k) bhi
          have hLeq : matchesSum a b alo i blo j = i - alo ∧
              matchesSum a b alo i blo j = j - blo := by omega
          have hReq : matchesSum a b (i + k) ahi (j + k) bhi = ahi - (i + k) ∧
              matchesSum a b (i + k) ahi (j + k) bhi = bhi - (j + k) := by
            omega
          by_cases hm1 : m < i - alo
          · exact IH alo i blo j (by omega) hLeq.1 hLeq.2 m (by omega)
          · by_cases hm2 : m < (i - alo) + k
            · have hidxa : alo + m = i + (m - (i - alo)) := by omega
              have hidxb : blo + m = j + (m - (i - alo)) := by omega
              rw [hidxa, hidxb]
              exact hcont (m - (i - alo)) (by omega)
            · have hidxa : alo + m = (i + k) + (m - (i - alo) - k) := by omega
              have hidxb : blo + m = (j + k) + (m - (i - alo) - k) := by omega
              rw [hidxa, hidxb]
              exact IH (i + k) ahi (j + k) bhi (by omega) hReq.1 hReq.2
                (m - (i - alo) - k) (by omega)
        · rw [if_neg h2] at hA hB
          have hLeq : matchesSum a b alo i blo j = i - alo ∧
              matchesSum a b alo i blo j = j - blo ∧
              (ahi - (i + k) = 0 ∨ bhi - (j + k) = 0) := by omega
          have hwin : ahi - (i + k) = 0 ∧ bhi - (j + k) = 0 := by omega
          by_cases hm1 : m < i - alo
          · exact IH alo i blo j (by omega) hLeq.1 hLeq.2.1 m (by omega)
          · have hm2 : m < (i - alo) + k := by omega
            have hidxa : alo + m = i + (m - (i - alo)) := by omega
            have hidxb : blo + m = j + (m - (i - alo)) := by omega
            rw [hidxa, hidxb]
            exact hcont (m - (i - alo)) (by omega)
      · rw [if_neg h1] at hA hB
        have hwin0 : i - alo = 0 ∨ j - blo = 0 := by
          rcases Decidable.not_and_iff_or_not.mp h1 with h | h
          · left; omega
          · right; omega
        by_cases h2 : i + k < ahi ∧ j + k < bhi
        · rw [if_pos h2] at hA hB
          have hle2 := matchesSum_le a b (i + k) ahi (j + k) bhi
          have hfront : i = alo ∧ j = blo := by omega
          have hReq : matchesSum a b (i + k) ahi (j + k) bhi = ahi - (i + k) ∧
              matchesSum a b (i + k) ahi (j + k) bhi = bhi - (j + k) := by
            omega
          by_cases hm2 : m < k
          · have hidxa : alo + m = i + m := by omega
            have hidxb : blo + m = j + m := by omega
            rw [hidxa, hidxb]
            exact hcont m (by omega)
          · have hidxa : alo + m = (i + k) + (m - k) := by omega
            have hidxb : blo + m = (j + k) + (m - k) := by omega
            rw [hidxa, hidxb]
            exact IH (i + k) ahi (j + k) bhi (by omega) hReq.1 hReq.2
              (m - k) (by omega)
        · rw [if_neg h2] at hA hB
          have hfront : i = alo ∧ j = blo := by omega
          have hm2 : m < k := by omega
          have hidxa : alo + m = i + m := by omega
          have hidxb : blo + m = j + m := by omega
          rw [hidxa, hidxb]
          exact hcont m (by omega)

theorem ratioQ_eq_one_iff (a b : Str) : ratioQ a b = 1 ↔ a = b := by
  constructor
  · intro h
    unfold ratioQ at h
    by_cases h0 : a.length + b.length = 0
    · have ha : a.length = 0 := by omega
      have hb : b.length = 0 := by omega
      rw [List.length_eq_zero.mp ha, List.length_eq_zero.mp hb]
    · rw [if_neg h0] at h
      have hT : ((a.length : ℚ) + (b.length : ℚ)) ≠ 0 := by
        have : 0 < a.length + b.length := Nat.pos_of_ne_zero h0
        have h2 : (0 : ℚ) < (a.length : ℚ) + (b.length : ℚ) := by
          exact_mod_cast this
        linarith
      rw [div_eq_one_iff_eq hT] at h
      have hM : 2 * matchesSum a b 0 a.length 0 b.length =
          a.length + b.length := by exact_mod_cast h
      have hle := matchesSum_le a b 0 a.length 0 b.length
      have hlen : a.length = b.length := by omega
      have hMa : matchesSum a b 0 a.length 0 b.length = a.length - 0 := by
        omega
      have hMb : matchesSum a b 0 a.length 0 b.length = b.length - 0 := by
        omega
      have hcontent := matchesSum_full a b a.length 0 a.length 0 b.length
        (by omega) hMa hMb
      apply List.ext_getElem hlen
      intro m h1 h2
      have := hcontent m (by omega)
      rw [Nat.zero_add] at this
      rw [← List.getD_eq_getElem a ' ' h1, ← List.getD_eq_getElem b ' ' h2]
      exact this
  · intro h
    rw [h]
    exact ratioQ_self b

/-! ### The translation-map invariant of `_build_translation_map` -/

/-- Number of entries of the dictionary carrying key `a` (a Python dict
has at most one). -/
def countKey (db : Db) (a : Str) : ℕ :=
  (db.filter (fun e => decide (e.1 = a))).length

theorem dbFind_none_iff {db : Db} {a : Str} :
    dbFind db a = none ↔ countKey db a = 0 := by
  unfold dbFind countKey
  rw [Option.map_eq_none', List.find?_eq_none, List.length_eq_zero,
    List.filter_eq_nil_iff]

theorem countKey_append (db1 db2 : Db) (a : Str) :
    countKey (db1 ++ db2) a = countKey db1 a + countKey db2 a := by
  unfold countKey
  rw [List.filter_append, List.length_append]

theorem countKey_single (b : Str) (td : TransData) (a : Str) :
    countKey [(b, td)] a = if b = a then 1 else 0 := by
  unfold countKey
  by_cases h : b = a
  · rw [if_pos h]
    simp [List.filter, h]
  · rw [if_neg h]
    simp [List.filter, h]

/-- One step of the `_build_translation_map` loop. -/
def buildStep (db : Db) (author : Str) : Db :=
  if (dbFind db author).isSome then db
  else db ++ [(author,
    { en := some (transliterateToEnglish author),
      variants := [transliterateToEnglish author] })]

theorem buildTranslationMap_eq_foldl (authors : List Str) :
    buildTranslationMap authors = authors.foldl buildStep [] := rfl

theorem buildStep_counts (db : Db) (author : Str)
    (hdb : ∀ b, countKey db b ≤ 1) :
    (∀ b, countKey (buildStep db author) b ≤ 1) ∧
    (∀ x, countKey db x = 1 → countKey (buildStep db author) x = 1) ∧
    countKey (buildStep db author) author = 1 := by
  unfold buildStep
  by_cases hp : (dbFind db author).isSome
  · rw [if_pos hp]
    refine ⟨hdb, fun x hx => hx, ?_⟩
    have h1 : countKey db author ≠ 0 := by
      intro hc
      rw [← dbFind_none_iff] at hc
      rw [hc] at hp
      exact absurd hp (by simp)
    have := hdb author
    omega
  · rw [if_neg hp]
    have h0 : countKey db author = 0 := by
      rw [← dbFind_none_iff]
      exact Option.not_isSome_iff_eq_none.mp hp
    refine ⟨?_, ?_, ?_⟩
    · intro b
      rw [countKey_append, countKey_single]
      by_cases hb : author = b
      · rw [if_pos hb, ← hb, h0]
      · rw [if_neg hb]
        have := hdb b
        omega
    · intro x hx
      rw [countKey_append, countKey_single]
      by_cases hb : author = x
      · rw [← hb] at hx
        omega
      · rw [if_neg hb, hx]
    · rw [countKey_append, countKey_single, if_pos rfl, h0]

theorem build_go (authors : List Str) :
    ∀ db : Db, (∀ b, countKey db b ≤ 1) →
      (∀ b, countKey (authors.foldl buildStep db) b ≤ 1) ∧
      (∀ x, countKey db x = 1 → countKey (authors.foldl buildStep db) x = 1) ∧
      (∀ x ∈ authors, countKey (authors.foldl buildStep db) x = 1) := by
  induction authors with
  | nil =>
    intro db hdb
    exact ⟨hdb, fun x hx => hx, fun x hx => absurd hx (List.not_mem_nil x)⟩
  | cons a l IH =>
    intro db hdb
    rcases buildStep_counts db a hdb with ⟨h1, h2, h3⟩
    rcases IH (buildStep db a) h1 with ⟨g1, g2, g3⟩
    refine ⟨g1, fun x hx => g2 x (h2 x hx), ?_⟩
    intro x hx
    rcases List.mem_cons.mp hx with h | h
    · subst h
      exact g2 x h3
    · exact g3 x h

theorem buildTranslationMap_count (authors : List Str) :
    ∀ a ∈ authors, countKey (buildTranslationMap authors) a = 1 := by
  rw [buildTranslationMap_eq_foldl]
  have h0 : ∀ b, countKey ([] : Db) b ≤ 1 := by
    intro b
    unfold countKey
    simp
  exact (build_go authors [] h0).2.2

/-! ### Permutation stability and tie-breaking -/

instance maxRightCommQ : RightCommutative (fun (x y : ℚ) => max x y) :=
  ⟨fun b a1 a2 => by
    show max (max b a1) a2 = max (max b a2) a1
    rw [max_assoc, max_comm a1 a2, ← max_assoc]⟩

theorem find?_eq_of_perm_unique {l l' : List Str} (hperm : l.Perm l')
    (p : Str → Bool)
    (huniq : ∀ x ∈ l, ∀ y ∈ l, p x = true → p y = true → x = y) :
    l.find? p = l'.find? p := by
  rcases hf : l.find? p with _ | x
  · rcases hf' : l'.find? p with _ | y
    · rfl
    · exfalso
      exact (List.find?_eq_none.mp hf y
        (hperm.mem_iff.mpr (List.mem_of_find?_eq_some hf')))
        (List.find?_some hf')
  · rcases hf' : l'.find? p with _ | y
    · exfalso
      exact (List.find?_eq_none.mp hf' x
        (hperm.mem_iff.mp (List.mem_of_find?_eq_some hf)))
        (List.find?_some hf)

    · rw [huniq x (List.mem_of_find?_eq_some hf)
        y (hperm.mem_iff.mpr (List.mem_of_find?_eq_some hf'))
        (List.find?_some hf) (List.find?_some hf')]

/-! ### Sortedness of `find_all_matches` output -/

theorem faLe_trans : ∀ (x y z : Str × ℚ),
    faLe x y = true → faLe y z = true → faLe x z = true := by
  intro x y z hxy hyz
  simp only [faLe, decide_eq_true_eq] at *
  exact le_trans hyz hxy

theorem faLe_total : ∀ (x y : Str × ℚ), (faLe x y || faLe y x) = true := by
  intro x y
  simp only [faLe, Bool.or_eq_true, decide_eq_true_eq]
  exact le_total y.2 x.2

theorem take_mergeSort_sorted (ms : List (Str × ℚ)) (k : ℕ) :
    ((ms.mergeSort faLe).take k).Pairwise (fun x y => x.2 ≥ y.2) := by
  have hs : (ms.mergeSort faLe).Pairwise (fun x y => faLe x y = true) :=
    List.sorted_mergeSort faLe_trans faLe_total ms
  have hs2 : (ms.mergeSort faLe).Pairwise (fun x y => x.2 ≥ y.2) :=
    hs.imp (fun h => by
      simp only [faLe, decide_eq_true_eq] at h
      exact h)
  exact hs2.sublist (List.take_sublist k _)

/-! ### Evaluation helpers for concrete inputs -/

/-- Evaluate one similarity score from the (kernel-computable) block sum
and normalized lengths. -/
theorem calcSim_val (x y : Str) (M lx ly : ℕ)
    (hM : matchesSum (normalizeText x) (normalizeText y) 0
      (normalizeText x).length 0 (normalizeText y).length = M)
    (hlx : (normalizeText x).length = lx) (hly : (normalizeText y).length = ly)
    (h0 : ¬ (lx + ly = 0)) :
    calcSim x y = 2 * (M : ℚ) / ((lx : ℚ) + (ly : ℚ)) := by
  unfold calcSim ratioQ
  rw [hM, hlx, hly, if_neg h0]

/-- Two strings with the same normalization score a perfect `1.0`. -/
theorem calcSim_eq_one_of_norm {x y : Str}
    (h : normalizeText x = normalizeText y) : calcSim x y = 1 := by
  unfold calcSim
  rw [h]
  exact ratioQ_self _

/-- The best raw strategy score of one author: every ungated strategy
score joined with the (ungated) surname-only score. -/
def bestStrategyScore (db : Db) (tq : Option Str) (query author : Str) : ℚ :=
  max ((ungatedScores db tq query author).foldl max 0)
    (calcSim query (surnameP author))

theorem effScore_le_best (db : Db) (tq : Option Str) (query author : Str) :
    effScore db tq query author ≤ bestStrategyScore db tq query author := by
  unfold effScore bestStrategyScore
  split
  · exact le_refl _
  · exact le_max_left _ _

theorem effScore_eval (db : Db) (tq : Option Str) (query author : Str)
    (U ss : ℚ) (hU : (ungatedScores db tq query author).foldl max 0 = U)
    (hss : calcSim query (surnameP author) = ss) :
    effScore db tq query author = if ss > (0.8 : ℚ) then max U ss else U := by
  unfold effScore
  rw [hU, hss]

/-- An author returned by `match_author` beat the threshold with its
effective score. -/
theorem matchAuthor_some_eff {db : Db} {authors : List Str} {query : Str}
    {t : ℚ} {x : Str} (hok : ∀ a ∈ authors, surnameOk a)
    (hr : matchAuthorE db authors query t = Except.ok (some x)) :
    x ∈ authors ∧ effScore db (tqOf query) query x > t := by
  rw [matchAuthorE_char db authors query t hok] at hr
  have hr2 := Except.ok.inj hr
  by_cases hF : (authors.map (effScore db (tqOf query) query)).foldl max t > t
  · rw [if_pos hF] at hr2
    have hx := List.mem_of_find?_eq_some hr2
    have hp := List.find?_some hr2
    rw [decide_eq_true_eq] at hp
    exact ⟨hx, hp ▸ hF⟩
  · rw [if_neg hF] at hr2
    exact absurd hr2 (by simp)

/-! ### Shared concrete evaluations

Effective scores of the catalog used by the order-stability theorems, for
the query `"аб"` and an empty translation dictionary. -/

theorem foldl_max_two_ones : List.foldl max (0 : ℚ) [1, 1] = 1 := by
  rw [List.foldl_cons, List.foldl_cons, List.foldl_nil,
    max_eq_right (zero_le_one), max_self]

theorem eff_ab_self : effScore [] (tqOf ("аб".data)) ("аб".data) ("аб".data)
    = 1 := by
  rw [effScore_eval [] (tqOf ("аб".data)) ("аб".data) ("аб".data) 1 1 ?hU ?hss]
  · rw [if_pos (by norm_num), max_self]
  case hU =>
    unfold ungatedScores
    rw [show ungatedArgs [] (tqOf ("аб".data)) ("аб".data) ("аб".data) =
      [(("аб".data), ("аб".data)), (("аб".data), ("аб".data))] from by decide]
    simp only [List.map_cons, List.map_nil]
    rw [calcSim_self]
    exact foldl_max_two_ones
  case hss =>
    rw [show surnameP ("аб".data) = ("аб".data) from by decide]
    exact calcSim_self _

theorem eff_ab_trailing : effScore [] (tqOf ("аб".data)) ("аб".data)
    ("аб ".data) = 1 := by
  rw [effScore_eval [] (tqOf ("аб".data)) ("аб".data) ("аб ".data) 1 1
    ?hU ?hss]
  · rw [if_pos (by norm_num), max_self]
  case hU =>
    unfold ungatedScores
    rw [show ungatedArgs [] (tqOf ("аб".data)) ("аб".data) ("аб ".data) =
      [(("аб".data), ("аб ".data)), (("аб".data), ("аб".data))] from by decide]
    simp only [List.map_cons, List.map_nil]
    rw [calcSim_eq_one_of_norm (x := ("аб".data)) (y := ("аб ".data))
      (by decide), calcSim_self]
    exact foldl_max_two_ones
  case hss =>
    rw [show surnameP ("аб ".data) = ("аб".data) from by decide]
    exact calcSim_self _

theorem eff_ab_space : effScore [] (tqOf ("аб".data)) ("аб".data) (" ".data)
    = 0 := by
  have hz : calcSim ("аб".data) (" ".data) = 0 := by
    rw [calcSim_val ("аб".data) (" ".data) 0 2 0 (by decide) (by decide)
      (by decide) (by decide)]
    norm_num
  rw [effScore_eval [] (tqOf ("аб".data)) ("аб".data) (" ".data) 0 0 ?hU ?hss]
  · rw [if_neg (by norm_num)]
  case hU =>
    unfold ungatedScores
    rw [show ungatedArgs [] (tqOf ("аб".data)) ("аб".data) (" ".data) =
      [(("аб".data), (" ".data))] from by decide]
    simp only [List.map_cons, List.map_nil]
    rw [hz, List.foldl_cons, List.foldl_nil, max_eq_left (le_refl 0)]
  case hss =>
    rw [show surnameP (" ".data) = (" ".data) from by decide]
    exact hz

/-! ## The claims -/

/-- C1, counterexample.  The claim "for every query, catalog and threshold,
`match_author` returns null whenever every candidate's best strategy score
is at most the threshold" is false as stated: for the catalog `[" "]` every
strategy score of the single candidate is `0 ≤ 0.6`, yet `match_author`
does not return null — it raises an `IndexError` at
`author.split()[-1]`. -/
theorem C1_counterexample :
    (∀ a ∈ [(" ".data : Str)],
      bestStrategyScore (buildTranslationMap [(" ".data)]) (tqOf ("x".data))
        ("x".data) a ≤ (0.6 : ℚ)) ∧
    matchAuthorE (buildTranslationMap [(" ".data)]) [(" ".data)] ("x".data)
      (0.6 : ℚ) ≠ Except.ok none := by
  constructor
  · intro a ha
    rw [List.mem_singleton] at ha
    subst ha
    have hz : calcSim ("x".data) (" ".data) = 0 := by
      rw [calcSim_val ("x".data) (" ".data) 0 1 0 (by decide) (by decide)
        (by decide) (by decide)]
      norm_num
    have hz2 : calcSim ("x".data) ([] : Str) = 0 := by
      rw [calcSim_val ("x".data) ([] : Str) 0 1 0 (by decide) (by decide)
        (by decide) (by decide)]
      norm_num
    unfold bestStrategyScore
    rw [show surnameP (" ".data) = (" ".data) from by decide, hz]
    unfold ungatedScores
    rw [show ungatedArgs (buildTranslationMap [(" ".data)]) (tqOf ("x".data))
      ("x".data) (" ".data) =
      [(("x".data), (" ".data)), (("x".data), ([] : Str)),
       (("x".data), ([] : Str))] from by decide]
    simp only [List.map_cons, List.map_nil]
    rw [hz, hz2]
    rw [List.foldl_cons, List.foldl_cons, List.foldl_cons, List.foldl_nil]
    norm_num
  · rw [show matchAuthorE (buildTranslationMap [(" ".data)]) [(" ".data)]
      ("x".data) (0.6 : ℚ) = Except.error () from rfl]
    simp

/-- C1 (amended).  Provided every catalog entry that contains a space also
splits into at least one whitespace part (the entry `" "` instead makes
`match_author` raise, see C7), `match_author` returns null whenever every
candidate's best strategy score is at most the threshold: the running best
starts at `(threshold, None)` and only a strictly greater score replaces
it, so in particular a candidate whose best score equals the threshold
exactly is never selected. -/
theorem C1_threshold_null (db : Db) (authors : List Str) (query : Str)
    (t : ℚ) (hok : ∀ a ∈ authors, surnameOk a)
    (hle : ∀ a ∈ authors, bestStrategyScore db (tqOf query) query a ≤ t) :
    matchAuthorE db authors query t = Except.ok none := by
  rw [matchAuthorE_char db authors query t hok]
  have hF : (authors.map (effScore db (tqOf query) query)).foldl max t
      = t := by
    apply le_antisymm
    · apply foldl_max_le _ _ _ (le_refl t)
      intro x hx
      rcases List.mem_map.mp hx with ⟨a, ha, hax⟩
      rw [← hax]
      exact le_trans (effScore_le_best db (tqOf query) query a) (hle a ha)
    · exact init_le_foldl_max _ _
  rw [hF, if_neg (lt_irrefl t)]

/-- C1, witness: a catalog whose only candidate scores `0` against the
query under every strategy yields null at threshold `0.6`. -/
theorem C1_threshold_null_witness :
    matchAuthorE [] [("бб".data)] ("яя".data) (0.6 : ℚ) = Except.ok none := by
  apply C1_threshold_null
  · intro a ha
    rw [List.mem_singleton] at ha
    subst ha
    decide
  · intro a ha
    rw [List.mem_singleton] at ha
    subst ha
    have hz : calcSim ("яя".data) ("бб".data) = 0 := by
      rw [calcSim_val ("яя".data) ("бб".data) 0 2 2 (by decide) (by decide)
        (by decide) (by decide)]
      norm_num
    unfold bestStrategyScore
    rw [show surnameP ("бб".data) = ("бб".data) from by decide, hz]
    unfold ungatedScores
    rw [show ungatedArgs [] (tqOf ("яя".data)) ("яя".data) ("бб".data) =
      [(("яя".data), ("бб".data)), (("яя".data), ("бб".data))] from by decide]
    simp only [List.map_cons, List.map_nil]
    rw [hz, List.foldl_cons, List.foldl_cons, List.foldl_nil]
    norm_num

/-- C2.  The surname-only strategy (last whitespace part) never makes a
candidate win with a score at most `0.8`, even when that score exceeds the
general threshold: if all of a candidate's ungated strategy scores are at
most the threshold and its surname-only score is at most `0.8`, that
candidate is never returned.  The same `> 0.8` floor gates the surname
contribution to the per-author max of `find_all_matches`: when it fails,
the max is exactly the ungated base score. -/
theorem C2_surname_floor :
    (∀ (db : Db) (authors : List Str) (query : Str) (t : ℚ) (a : Str),
      a ∈ authors →
      (ungatedScores db (tqOf query) query a).foldl max 0 ≤ t →
      calcSim query (surnameP a) ≤ (0.8 : ℚ) →
      matchAuthorE db authors query t ≠ Except.ok (some a)) ∧
    (∀ (db : Db) (query author : Str), surnameOk author →
      calcSim query (surnameP author) ≤ (0.8 : ℚ) →
      faScoreE db query author = Except.ok (faBase db query author)) := by
  constructor
  · intro db authors query t a ha hU hss hc
    by_cases hok : ∀ b ∈ authors, surnameOk b
    · rcases matchAuthor_some_eff hok hc with ⟨_, heff⟩
      have hle : effScore db (tqOf query) query a ≤ t := by
        unfold effScore
        rw [if_neg (not_lt.mpr hss)]
        exact hU
      linarith
    · push_neg at hok
      rcases hok with ⟨b, hb, hbad⟩
      rw [matchAuthorE_err db authors query t ⟨b, hb, hbad⟩] at hc
      exact absurd hc (by simp)
  · intro db query author hok hss
    rw [faScoreE_ok db query hok]
    unfold faScore
    rw [if_neg (not_lt.mpr hss)]

/-- C2, witness: a candidate whose ungated scores are `0` and whose
surname-only score stays at the floor is not selected, and its
`find_all_matches` max is the ungated base. -/
theorem C2_surname_floor_witness :
    matchAuthorE [] [("бб вв".data)] ("яя".data) (0.6 : ℚ) ≠
      Except.ok (some ("бб вв".data)) ∧
    faScoreE [] ("яя".data) ("бб вв".data) =
      Except.ok (faBase [] ("яя".data) ("бб вв".data)) := by
  have hzv : calcSim ("яя".data) ("вв".data) = 0 := by
    rw [calcSim_val ("яя".data) ("вв".data) 0 2 2 (by decide) (by decide)
      (by decide) (by decide)]
    norm_num
  have hsp : surnameP ("бб вв".data) = ("вв".data) := by decide
  constructor
  · apply C2_surname_floor.1 [] [("бб вв".data)] ("яя".data) (0.6 : ℚ)
      ("бб вв".data) (List.mem_singleton.mpr rfl)
    · have hzf : calcSim ("яя".data) ("бб вв".data) = 0 := by
        rw [calcSim_val ("яя".data) ("бб вв".data) 0 2 5 (by decide)
          (by decide) (by decide) (by decide)]
        norm_num
      have hzb : calcSim ("яя".data) ("бб".data) = 0 := by
        rw [calcSim_val ("яя".data) ("бб".data) 0 2 2 (by decide) (by decide)
          (by decide) (by decide)]
        norm_num
      unfold ungatedScores
      rw [show ungatedArgs [] (tqOf ("яя".data)) ("яя".data) ("бб вв".data) =
        [(("яя".data), ("бб вв".data)), (("яя".data), ("бб".data))]
        from by decide]
      simp only [List.map_cons, List.map_nil]
      rw [hzf, hzb, List.foldl_cons, List.foldl_cons, List.foldl_nil]
      norm_num
    · rw [hsp, hzv]
      norm_num
  · apply C2_surname_floor.2 [] ("яя".data) ("бб вв".data) (by decide)
    rw [hsp, hzv]
    norm_num

/-- C3, counterexample.  The claim fails on both halves: a persisted store
is loaded verbatim, so the empty store leaves the catalog author `Пушкин`
with zero (not exactly one) translation entries; and a corrupt store makes
construction raise instead of synthesizing. -/
theorem C3_counterexample :
    initTranslationDb [("Пушкин".data)] (some (Except.ok [])) =
      Except.ok [] ∧
    countKey [] ("Пушкин".data) = 0 ∧
    initTranslationDb [("Пушкин".data)] (some (Except.error ())) =
      Except.error () := ⟨rfl, rfl, rfl⟩

/-- C3 (amended).  When no persisted store exists, the constructor
synthesizes a table in which every catalog author has exactly one
translation entry (duplicates included); when a store exists and parses,
it is loaded verbatim with no coverage guarantee; and a corrupt store
propagates the `json.load` exception. -/
theorem C3_translation_entries :
    (∀ (authors : List Str) (a : Str), a ∈ authors →
      countKey (buildTranslationMap authors) a = 1) ∧
    (∀ authors : List Str, initTranslationDb authors none =
      Except.ok (buildTranslationMap authors)) ∧
    (∀ (authors : List Str) (db : Db),
      initTranslationDb authors (some (Except.ok db)) = Except.ok db) := by
  refine ⟨?_, fun _ => rfl, fun _ _ => rfl⟩
  intro authors a ha
  exact buildTranslationMap_count authors a ha

/-- C3, witness: a duplicated catalog author still gets exactly one
synthesized entry. -/
theorem C3_translation_entries_witness :
    countKey (buildTranslationMap [("Пушкин".data), ("Пушкин".data)])
      ("Пушкин".data) = 1 := by
  apply C3_translation_entries.1
  simp

theorem find?_append_cons {α : Type} (p : α → Bool) (l1 : List α) (a : α)
    (rest : List α) (h1 : ∀ c ∈ l1, p c = false) (ha : p a = true) :
    List.find? p (l1 ++ a :: rest) = some a := by
  induction l1 with
  | nil =>
    rw [List.nil_append, List.find?_cons_of_pos _ ha]
  | cons x xs ih =>
    rw [List.cons_append, List.find?_cons_of_neg _ (by
      rw [h1 x (List.mem_cons_self x xs)]
      exact Bool.false_ne_true)]
    exact ih (fun c hc => h1 c (List.mem_cons_of_mem x hc))

/-- C4, counterexample.  "When two different authors attain the same top
score, the author appearing earlier in the supplied catalog order is
returned" fails as stated: in the catalog `[" ", "аб", "аб "]` the two
distinct authors `"аб"` and `"аб "` tie at the top effective score `1`
(above the threshold), yet nothing is returned — the entry `" "` makes
`match_author` raise first. -/
theorem C4_counterexample :
    matchAuthorE [] [(" ".data), ("аб".data), ("аб ".data)] ("аб".data)
      (0.6 : ℚ) = Except.error () ∧
    ("аб".data : Str) ≠ ("аб ".data : Str) ∧
    effScore [] (tqOf ("аб".data)) ("аб".data) ("аб".data) =
      effScore [] (tqOf ("аб".data)) ("аб".data) ("аб ".data) ∧
    effScore [] (tqOf ("аб".data)) ("аб".data) ("аб".data) > (0.6 : ℚ) ∧
    (∀ c ∈ [(" ".data : Str), ("аб".data), ("аб ".data)],
      effScore [] (tqOf ("аб".data)) ("аб".data) c ≤
        effScore [] (tqOf ("аб".data)) ("аб".data) ("аб".data)) := by
  refine ⟨rfl, by decide, ?_, ?_, ?_⟩
  · rw [eff_ab_self, eff_ab_trailing]
  · rw [eff_ab_self]
    norm_num
  · intro c hc
    rw [eff_ab_self]
    rcases List.mem_cons.mp hc with h | hc
    · rw [h, eff_ab_space]
      norm_num
    · rcases List.mem_cons.mp hc with h | hc
      · exact le_of_eq (by rw [h, eff_ab_self])
      · exact le_of_eq (by rw [List.mem_singleton.mp hc, eff_ab_trailing])

/-- C4 (amended).  `match_author` is catalog-order-stable: permuting the
catalog never changes the result when the per-author effective scores are
distinct (this holds even through the raising catalogs — both orders then
raise).  And provided no catalog entry makes the surname extraction raise
(see C7), when two different authors tie at the top score above the
threshold, the one appearing earlier in the supplied order is returned: a
later equal score never replaces the running best. -/
theorem C4_order_stability :
    (∀ (db : Db) (q : Str) (t : ℚ) (l l2 : List Str), l.Perm l2 →
      (∀ a ∈ l, ∀ b ∈ l, effScore db (tqOf q) q a = effScore db (tqOf q) q b
        → a = b) →
      matchAuthorE db l q t = matchAuthorE db l2 q t) ∧
    (∀ (db : Db) (q : Str) (t : ℚ) (l1 l2 l3 : List Str) (a b : Str),
      (∀ c ∈ l1 ++ a :: l2 ++ b :: l3, surnameOk c) →
      effScore db (tqOf q) q b = effScore db (tqOf q) q a →
      effScore db (tqOf q) q a > t →
      (∀ c ∈ l1 ++ a :: l2 ++ b :: l3,
        effScore db (tqOf q) q c ≤ effScore db (tqOf q) q a) →
      (∀ c ∈ l1, effScore db (tqOf q) q c < effScore db (tqOf q) q a) →
      matchAuthorE db (l1 ++ a :: l2 ++ b :: l3) q t =
        Except.ok (some a)) := by
  constructor
  · intro db q t l l2 hperm huniq
    by_cases hbad : ∃ x ∈ l, ¬ surnameOk x
    · rcases hbad with ⟨x, hx, hxbad⟩
      rw [matchAuthorE_err db l q t ⟨x, hx, hxbad⟩,
        matchAuthorE_err db l2 q t ⟨x, hperm.mem_iff.mp hx, hxbad⟩]
    · push_neg at hbad
      have hok2 : ∀ x ∈ l2, surnameOk x :=
        fun x hx => hbad x (hperm.mem_iff.mpr hx)
      rw [matchAuthorE_char db l q t hbad, matchAuthorE_char db l2 q t hok2]
      have hF : (l.map (effScore db (tqOf q) q)).foldl max t =
          (l2.map (effScore db (tqOf q) q)).foldl max t :=
        (hperm.map (effScore db (tqOf q) q)).foldl_eq t
      rw [hF]
      by_cases hFt : (l2.map (effScore db (tqOf q) q)).foldl max t > t
      · rw [if_pos hFt, if_pos hFt]
        refine congrArg Except.ok ?_
        apply find?_eq_of_perm_unique hperm
        intro x hx y hy hpx hpy
        rw [decide_eq_true_eq] at hpx hpy
        exact huniq x hx y hy (by rw [hpx, hpy])
      · rw [if_neg hFt, if_neg hFt]
  · intro db q t l1 l2 l3 a b hok hba hat hbound hfirst
    rw [matchAuthorE_char db _ q t hok]
    have hmem : a ∈ l1 ++ a :: l2 ++ b :: l3 := by simp
    have hFa : ((l1 ++ a :: l2 ++ b :: l3).map
        (effScore db (tqOf q) q)).foldl max t = effScore db (tqOf q) q a := by
      apply le_antisymm
      · apply foldl_max_le _ _ _ (le_of_lt hat)
        intro x hx
        rcases List.mem_map.mp hx with ⟨c, hc, hcx⟩
        rw [← hcx]
        exact hbound c hc
      · exact mem_le_foldl_max _ _ _ (List.mem_map.mpr ⟨a, hmem, rfl⟩)
    rw [hFa, if_pos hat]
    refine congrArg Except.ok ?_
    rw [List.append_assoc, List.cons_append]
    apply find?_append_cons
    · intro c hc
      exact decide_eq_false (ne_of_lt (hfirst c hc))
    · exact decide_eq_true rfl

/-- C4, witness: the permutation half at a singleton catalog, and the
tie-break half at the catalog `["аб", "аб "]`, whose two authors tie at
effective score `1` for the query `"аб"`; the earlier one is returned. -/
theorem C4_order_stability_witness :
    matchAuthorE [] [("аб".data)] ("аб".data) (0.6 : ℚ) =
      matchAuthorE [] [("аб".data)] ("аб".data) (0.6 : ℚ) ∧
    matchAuthorE [] ([] ++ ("аб".data) :: [] ++ ("аб ".data) :: [])
      ("аб".data) (0.6 : ℚ) = Except.ok (some ("аб".data)) := by
  constructor
  · exact C4_order_stability.1 [] ("аб".data) 0.6 [("аб".data)] [("аб".data)]
      (List.Perm.refl _)
      (fun a ha b hb _ => by
        rw [List.mem_singleton] at ha hb
        rw [ha, hb])
  · apply C4_order_stability.2 [] ("аб".data) 0.6 [] [] [] ("аб".data)
      ("аб ".data) ?hok
      (by rw [eff_ab_trailing, eff_ab_self])
      (by rw [eff_ab_self]; norm_num)
      ?hbound (fun c hc => absurd hc (List.not_mem_nil c))
    case hok =>
      intro c hc
      have hc2 : c = ("аб".data : Str) ∨ c = ("аб ".data : Str) := by
        simpa using hc
      rcases hc2 with h | h <;> subst h <;> decide
    case hbound =>
      intro c hc
      rw [eff_ab_self]
      have hc2 : c = ("аб".data : Str) ∨ c = ("аб ".data : Str) := by
        simpa using hc
      rcases hc2 with h | h
      · exact le_of_eq (by rw [h, eff_ab_self])
      · exact le_of_eq (by rw [h, eff_ab_trailing])

/-- C5, counterexample.  "For every query, threshold and top_k,
`find_all_matches` returns a sequence of at most `top_k` pairs …" fails on
a catalog containing the entry `" "`: no sequence is returned, the call
raises (`IndexError` in the surname extraction). -/
theorem C5_counterexample :
    findAllMatchesE [] [(" ".data)] ("яя".data) (0.5 : ℚ) 5 =
      Except.error () := rfl

/-- C5 (amended).  Provided no catalog entry makes the surname extraction
raise (see C7), `find_all_matches` returns a list of at most `top_k`
pairs, sorted by non-increasing score, whose members are exactly catalog
authors paired with their per-author max score (which uses no
transliterated and no surname-part strategy, `faScore`), each at least the
threshold; and every qualifying author appears whenever the qualifying
list fits within `top_k`. -/
theorem C5_find_all :
    ∀ (db : Db) (authors : List Str) (query : Str) (t : ℚ) (k : ℕ),
      (∀ a ∈ authors, surnameOk a) →
      ∃ res, findAllMatchesE db authors query t k = Except.ok res ∧
        res.length ≤ k ∧
        res.Pairwise (fun x y => x.2 ≥ y.2) ∧
        (∀ p ∈ res, p.1 ∈ authors ∧ p.2 = faScore db query p.1 ∧ p.2 ≥ t) ∧
        ((faList db query t authors).length ≤ k →
          ∀ a ∈ authors, faScore db query a ≥ t →
            (a, faScore db query a) ∈ res) := by
  intro db authors query t k hok
  refine ⟨_, findAllMatchesE_ok db authors query t k hok, ?_, ?_, ?_, ?_⟩
  · exact List.length_take_le k _
  · exact take_mergeSort_sorted _ k
  · intro p hp
    exact mem_faList.mp (List.mem_mergeSort.mp (List.mem_of_mem_take hp))
  · intro hlen a ha hge
    have hlen2 : ((faList db query t authors).mergeSort faLe).length ≤ k := by
      rw [List.length_mergeSort]
      exact hlen
    rw [List.take_of_length_le hlen2]
    exact List.mem_mergeSort.mpr (mem_faList.mpr ⟨ha, rfl, hge⟩)

/-- C5, witness at a concrete one-author catalog. -/
theorem C5_find_all_witness :
    ∃ res, findAllMatchesE [] [("бб".data)] ("яя".data) (0.5 : ℚ) 5 =
        Except.ok res ∧
      res.length ≤ 5 ∧
      res.Pairwise (fun x y => x.2 ≥ y.2) ∧
      (∀ p ∈ res, p.1 ∈ [("бб".data)] ∧
        p.2 = faScore [] ("яя".data) p.1 ∧ p.2 ≥ (0.5 : ℚ)) ∧
      ((faList [] ("яя".data) (0.5 : ℚ) [("бб".data)]).length ≤ 5 →
        ∀ a ∈ [("бб".data)], faScore [] ("яя".data) a ≥ (0.5 : ℚ) →
          (a, faScore [] ("яя".data) a) ∈ res) :=
  C5_find_all [] [("бб".data)] ("яя".data) (0.5 : ℚ) 5 (by decide)

/-- C6, counterexample.  `calculate_similarity` is not symmetric:
`difflib.SequenceMatcher.ratio` depends on the argument order (its
popularity heuristic and longest-match tie-breaking are tied to the second
argument), and for `("ab", "bacb")` the two orders give `2/3` and `1/3`. -/
theorem C6_counterexample :
    calcSim ("ab".data) ("bacb".data) ≠ calcSim ("bacb".data) ("ab".data) := by
  rw [calcSim_val ("ab".data) ("bacb".data) 2 2 4 (by decide) (by decide)
    (by decide) (by decide)]
  rw [calcSim_val ("bacb".data) ("ab".data) 1 4 2 (by decide) (by decide)
    (by decide) (by decide)]
  norm_num

/-- C6 (amended).  `calculate_similarity` is symmetric at the top of its
range: a perfect score in one order is a perfect score in the other, and
either holds exactly when the two normalized strings are equal. -/
theorem C6_perfect_match : ∀ a b : Str,
    (calcSim a b = 1 ↔ calcSim b a = 1) ∧
    (calcSim a b = 1 ↔ normalizeText a = normalizeText b) := by
  intro a b
  have h1 : calcSim a b = 1 ↔ normalizeText a = normalizeText b := by
    unfold calcSim
    exact ratioQ_eq_one_iff (normalizeText a) (normalizeText b)
  have h2 : calcSim b a = 1 ↔ normalizeText b = normalizeText a := by
    unfold calcSim
    exact ratioQ_eq_one_iff (normalizeText b) (normalizeText a)
  refine ⟨?_, h1⟩
  rw [h1, h2]
  exact eq_comm

/-- C7, counterexample.  "match_author never raises … find_all_matches
likewise never raises" fails: a catalog entry that contains a space but
splits to no words (here `"\t "`) sends both through
`author.split()[-1]`, an `IndexError`. -/
theorem C7_counterexample :
    matchAuthorE [] [("\t ".data)] ([] : Str) (0.6 : ℚ) =
      Except.error () ∧
    findAllMatchesE [] [("\t ".data)] ("q".data) (0.5 : ℚ) 3 =
      Except.error () := ⟨rfl, rfl⟩

/-- C7 (amended).  Provided every catalog entry either contains no space or
splits into at least one word (`surnameOk`), `match_author` returns
without raising, and any non-null result is a member of the catalog;
`find_all_matches` returns a sequence of catalog members; an empty catalog
yields null and the empty sequence.  This holds for every query, including
the empty string. -/
theorem C7_totality : ∀ (db : Db) (authors : List Str) (query : Str)
    (t : ℚ) (k : ℕ), (∀ a ∈ authors, surnameOk a) →
    (∃ r, matchAuthorE db authors query t = Except.ok r ∧
      ∀ x, r = some x → x ∈ authors) ∧
    (∃ res, findAllMatchesE db authors query t k = Except.ok res ∧
      ∀ p ∈ res, p.1 ∈ authors) ∧
    matchAuthorE db [] query t = Except.ok none ∧
    findAllMatchesE db [] query t k = Except.ok [] := by
  intro db authors query t k hok
  refine ⟨⟨_, matchAuthorE_ok db authors query t hok, ?_⟩,
    ⟨_, findAllMatchesE_ok db authors query t k hok, ?_⟩, ?_, ?_⟩
  · intro x hx
    have hr : matchAuthorE db authors query t = Except.ok (some x) := by
      rw [matchAuthorE_ok db authors query t hok, hx]
    exact (matchAuthor_some_eff hok hr).1
  · intro p hp
    exact (mem_faList.mp
      (List.mem_mergeSort.mp (List.mem_of_mem_take hp))).1
  · rw [matchAuthorE_ok db [] query t (fun a ha =>
      absurd ha (List.not_mem_nil a))]
    rfl
  · rw [findAllMatchesE_ok db [] query t k (fun a ha =>
      absurd ha (List.not_mem_nil a))]
    rw [show faList db query t [] = [] from rfl, List.mergeSort_nil,
      List.take_nil]

/-- C7, witness at a one-author catalog and the empty query. -/
theorem C7_totality_witness :
    (∃ r, matchAuthorE [] [("бб".data)] ([] : Str) (0.6 : ℚ) =
        Except.ok r ∧ ∀ x, r = some x → x ∈ [("бб".data)]) ∧
    (∃ res, findAllMatchesE [] [("бб".data)] ([] : Str) (0.6 : ℚ) 2 =
        Except.ok res ∧ ∀ p ∈ res, p.1 ∈ [("бб".data)]) ∧
    matchAuthorE [] ([] : List Str) ([] : Str) (0.6 : ℚ) = Except.ok none ∧
    findAllMatchesE [] ([] : List Str) ([] : Str) (0.6 : ℚ) 2 =
      Except.ok [] :=
  C7_totality [] [("бб".data)] ([] : Str) (0.6 : ℚ) 2 (by
    intro a ha
    rw [List.mem_singleton] at ha
    subst ha
    decide)

/-- C8.  `calculate_similarity(x, x) = 1` for every string `x` — in
particular for every non-empty one — and `calculate_similarity("", "")`
is `1` (both empty means perfect match). -/
theorem C8_similarity_reflexive :
    (∀ x : Str, calcSim x x = 1) ∧ calcSim ([] : Str) ([] : Str) = 1 :=
  ⟨calcSim_self, calcSim_self []⟩

/-- C9, counterexample.  "the stemmer strips a suffix only if the stripped
result still exceeds length 4" fails: the guard in `stem_russian` is
`len(word) > 4`, on the *unstripped* word.  `"икова"` (length 5) is
stripped to `"ик"` (length 2 ≤ 4). -/
theorem C9_counterexample :
    stemRussian ("икова".data) = ("ик".data) ∧
    (stemRussian ("икова".data)).length ≤ 4 ∧
    stemRussian ("икова".data) ≠ ("икова".data) := by decide

/-- C9 (amended).  `stem_russian` strips the first listed suffix only if
the *word itself* exceeds length 4: words of length at most 4 are always
returned unchanged, and any change strips exactly one listed suffix from a
word of length greater than 4. -/
theorem C9_stemmer_guard : ∀ w : Str,
    (w.length ≤ 4 → stemRussian w = w) ∧
    (stemRussian w ≠ w → 4 < w.length ∧ ∃ e ∈ stemEndings,
      e.isSuffixOf w ∧ stemRussian w = w.take (w.length - e.length)) := by
  intro w
  constructor
  · intro h4
    unfold stemRussian
    rw [List.find?_eq_none.mpr ?none]
    case none =>
      intro e he
      simp only [Bool.and_eq_true, decide_eq_true_eq]
      intro hc
      exact absurd hc.1 (Nat.not_lt.mpr h4)
  · intro hne
    unfold stemRussian at hne ⊢
    cases hfind : stemEndings.find?
        (fun ending => decide (4 < w.length) && ending.isSuffixOf w) with
    | none =>
      rw [hfind] at hne
      exact absurd rfl hne
    | some e =>
      have hmem := List.mem_of_find?_eq_some hfind
      have hp := List.find?_some hfind
      rw [Bool.and_eq_true, decide_eq_true_eq] at hp
      exact ⟨hp.1, e, hmem, hp.2, rfl⟩

/-- C9, witness: a short word is kept (`"кот"`), and a changed word
(`"пушкина"`) has length above 4 and lost a listed suffix. -/
theorem C9_stemmer_guard_witness :
    stemRussian ("кот".data) = ("кот".data) ∧
    (4 < ("пушкина".data : Str).length ∧ ∃ e ∈ stemEndings,
      e.isSuffixOf ("пушкина".data) ∧ stemRussian ("пушкина".data) =
        ("пушкина".data : Str).take
          (("пушкина".data : Str).length - e.length)) :=
  ⟨(C9_stemmer_guard ("кот".data)).1 (by decide),
   (C9_stemmer_guard ("пушкина".data)).2 (by decide)⟩

/-- C10.  `detect_intent` returns `"unknown"` exactly when the text is
empty or all-whitespace (strips to nothing); every other text yields
`"author_search"` or `"poem_search"`. -/
theorem C10_detect_intent : ∀ (text : Str) (known : Option (List Str)),
    (detectIntent text known = Intent.unknown ↔ pyStrip text = []) ∧
    (pyStrip text ≠ [] → detectIntent text known = Intent.author_search ∨
      detectIntent text known = Intent.poem_search) := by
  intro text known
  by_cases hb : (text.isEmpty || (pyStrip text).isEmpty) = true
  · have hnil : pyStrip text = [] := by
      have hb2 := hb
      rw [Bool.or_eq_true] at hb2
      rcases hb2 with h | h
      · rw [List.isEmpty_iff.mp h]
        rfl
      · exact List.isEmpty_iff.mp h
    refine ⟨⟨fun _ => hnil, fun _ => ?_⟩, fun hne => absurd hnil hne⟩
    unfold detectIntent
    rw [if_pos hb]
  · have hne : pyStrip text ≠ [] := by
      intro h
      apply hb
      rw [Bool.or_eq_true]
      exact Or.inr (List.isEmpty_iff.mpr h)
    constructor
    · refine ⟨fun hu => ?_, fun h => absurd h hne⟩
      exfalso
      unfold detectIntent at hu
      rw [if_neg hb] at hu
      split at hu
      · exact absurd hu (by decide)
      · split at hu
        · exact absurd hu (by decide)
        · split at hu
          · exact absurd hu (by decide)
          · split at hu
            · exact absurd hu (by decide)
            · exact absurd hu (by decide)
    · intro _
      unfold detectIntent
      rw [if_neg hb]
      split
      · exact Or.inr rfl
      · split
        · exact Or.inl rfl
        · split
          · exact Or.inl rfl
          · split
            · exact Or.inl rfl
            · exact Or.inr rfl

/-- C10, witness at a concrete non-blank text. -/
theorem C10_detect_intent_witness :
    pyStrip ("abc".data) ≠ [] ∧
    (detectIntent ("abc".data) none = Intent.author_search ∨
      detectIntent ("abc".data) none = Intent.poem_search) :=
  ⟨by decide, (C10_detect_intent ("abc".data) none).2 (by decide)⟩

end PoemRec
